import Mathlib

set_option maxHeartbeats 1000000

/-
Shallow embedding of src/hmonitors.py (the hmonitors repository).

The source keeps positions and resolutions as Python strings ('XxY',
'auto', 'preferred', or None) and parses them with int(s.split('x')[i])
at use sites.  The embedding replaces each string by a small inductive
type whose eliminators fail exactly where the Python parse would raise
(ValueError on int('auto') / int('preferred'), AttributeError on
None.split).  Fatal sys.exit(1) calls and uncaught exceptions are both
modelled as Except.error, one constructor per distinct source site.
-/

namespace HM

/-- Error outcomes of one reconciliation pass.  Python signals these as
sys.exit(1) calls or uncaught exceptions; the embedding collapses both
into an Except error, one constructor per distinct source site. -/
inductive Err where
  | ambiguous       -- select_monitors: multiple monitors matched (line 267), sys.exit(1)
  | noMatchKey      -- setup_monitors: config entry without a match key (line 386), sys.exit(1)
  | monitorNotFound -- setup_monitors: referenced monitor not in mapping (line 412), sys.exit(1)
  | invalidAlign    -- Monitor.set_align: invalid value (line 131), sys.exit(1)
  | valueError      -- int() applied to a non-numeric string such as 'auto'
  | attrError       -- attribute access on None (position None, or anchor None)
  | keyError        -- dict lookup of a missing key
  | indexError      -- list index out of range (position directive with one token)
  | fuelOut         -- unbounded recursion (Python RecursionError)
  deriving DecidableEq, Repr

/-- A monitor position.  The source stores it as the string 'XxY', the
string 'auto', or None; posX and posY below mirror int(s.split('x')[i]). -/
inductive Pos where
  | posAt (x y : Int)
  | auto
  | noPos
  deriving DecidableEq, Repr

/-- A monitor resolution: the string 'WxH', the string 'preferred', or None. -/
inductive Res where
  | px (w h : Int)
  | preferred
  | noRes
  deriving DecidableEq, Repr

/-- int(position.split('x')[0]): ValueError on 'auto', AttributeError on None. -/
def posX : Pos → Except Err Int
  | Pos.posAt x _ => Except.ok x
  | Pos.auto => Except.error Err.valueError
  | Pos.noPos => Except.error Err.attrError

/-- int(position.split('x')[1]): ValueError on 'auto', AttributeError on None. -/
def posY : Pos → Except Err Int
  | Pos.posAt _ y => Except.ok y
  | Pos.auto => Except.error Err.valueError
  | Pos.noPos => Except.error Err.attrError

/-- int(resolution.split('x')[0]): ValueError on 'preferred', AttributeError on None. -/
def resW : Res → Except Err Int
  | Res.px w _ => Except.ok w
  | Res.preferred => Except.error Err.valueError
  | Res.noRes => Except.error Err.attrError

/-- int(resolution.split('x')[1]): ValueError on 'preferred', AttributeError on None. -/
def resH : Res → Except Err Int
  | Res.px _ h => Except.ok h
  | Res.preferred => Except.error Err.valueError
  | Res.noRes => Except.error Err.attrError

/-- The Monitor class (source lines 46-168).  The directional relations
hold the dict key (logical name) of the neighbor, or None. -/
structure Monitor where
  id : String
  name : String
  above : Option String
  below : Option String
  left : Option String
  right : Option String
  resolution : Res
  position : Pos
  align : String
  scale : String
  extra : Option String
  deriving DecidableEq, Repr

/-- Monitor.__init__(id, name) (source lines 55-67).  The integer scale
default 1 is modelled as the string it prints as. -/
def Monitor.init (id name : String) : Monitor :=
  { id := id, name := name,
    above := none, below := none, left := none, right := none,
    resolution := Res.noRes, position := Pos.noPos,
    align := "center", scale := "1", extra := none }

def Monitor.set_above (m : Monitor) (above : String) : Monitor :=
  { m with above := some above }

def Monitor.set_below (m : Monitor) (below : String) : Monitor :=
  { m with below := some below }

def Monitor.set_left (m : Monitor) (left : String) : Monitor :=
  { m with left := some left }

def Monitor.set_right (m : Monitor) (right : String) : Monitor :=
  { m with right := some right }

def Monitor.set_resolution (m : Monitor) (resolution : Res) : Monitor :=
  { m with resolution := resolution }

/-- Monitor.set_position, the attribute setter (source lines 114-121). -/
def Monitor.set_position (m : Monitor) (position : Pos) : Monitor :=
  { m with position := position }

/-- Monitor.set_align (source lines 123-133): a value outside the allowed
list logs an error and calls sys.exit(1). -/
def Monitor.set_align (m : Monitor) (align : String) : Except Err Monitor :=
  if align = "left" ∨ align = "right" ∨ align = "top" ∨ align = "bottom" ∨ align = "center"
  then Except.ok { m with align := align }
  else Except.error Err.invalidAlign

def Monitor.set_scale (m : Monitor) (scale : String) : Monitor :=
  { m with scale := scale }

def Monitor.set_extra (m : Monitor) (extra : String) : Monitor :=
  { m with extra := some extra }

/-- The monitors dict of setup_monitors: insertion-ordered, as Python dicts are. -/
abbrev MMap := List (String × Monitor)

/-- monitors[name] (first match; Python dicts cannot hold duplicates). -/
def lookupM : MMap → String → Option Monitor
  | [], _ => none
  | (k, m) :: rest, n => if k = n then some m else lookupM rest n

/-- monitors[name] = m for an existing key: in-place, order-preserving. -/
def updateM : MMap → String → Monitor → MMap
  | [], _, _ => []
  | (k, v) :: rest, n, m => if k = n then (k, m) :: rest else (k, v) :: updateM rest n m

/-- Read-modify-write of one entry, the way the source mutates
monitors[name] through a setter method. -/
def updateWith (ms : MMap) (k : String) (f : Monitor → Monitor) : MMap :=
  match lookupM ms k with
  | none => ms
  | some m => updateM ms k (f m)

/-- Lift a Python lookup that raises on absence. -/
def need {α : Type} (o : Option α) (e : Err) : Except Err α :=
  match o with
  | some a => Except.ok a
  | none => Except.error e

/-- One record of hyprctl monitors all -j: a JSON object with at least
name, width and height; further matchable fields are kept as strings. -/
structure Phys where
  name : String
  width : Int
  height : Int
  fields : List (String × String)
  deriving DecidableEq, Repr

/-- monitor[key] on the JSON record (matching consults arbitrary fields;
the numeric width and height are modelled apart and not matched on). -/
def Phys.get (p : Phys) (k : String) : Option String :=
  if k = "name" then some p.name else List.lookup k p.fields

/-- The inner loop of select_monitors (source lines 257-262): every
key/value pair of the match list must be present and equal. -/
def matchOne (mon : Phys) (mt : List (String × String)) : Bool :=
  mt.all (fun kv =>
    match Phys.get mon kv.1 with
    | some v => v == kv.2
    | none => false)

/-- select_monitors (source lines 244-271): more than one match is fatal,
zero matches returns None. -/
def select_monitors (mons : List Phys) (mt : List (String × String)) :
    Except Err (Option Phys) :=
  let selected := mons.filter (fun m => matchOne m mt)
  if selected.length > 1 then Except.error Err.ambiguous
  else Except.ok selected.head?

/-- Substring test on character lists (Python needle in hay). -/
def subOf : List Char → List Char → Bool
  | needle, [] => needle.isEmpty
  | needle, c :: rest => needle.isPrefixOf (c :: rest) || subOf needle rest

/-- Python substring containment: needle in hay. -/
def containsSub (hay needle : String) : Bool :=
  subOf needle.toList hay.toList

/-- Helper for splitTokens: scan the characters, accumulating the current
token reversed, emitting it at each space run. -/
def splitTokensAux : List Char → List Char → List String
  | [], acc => if acc.isEmpty then [] else [String.mk acc.reverse]
  | c :: rest, acc =>
    if c = ' ' then
      if acc.isEmpty then splitTokensAux rest []
      else String.mk acc.reverse :: splitTokensAux rest []
    else splitTokensAux rest (c :: acc)

/-- Python str.split(): whitespace-separated tokens, empties dropped. -/
def splitTokens (s : String) : List String :=
  splitTokensAux s.toList []

/-- position.split()[1]: none models the IndexError on a one-token string. -/
def token1 (s : String) : Option String :=
  (splitTokens s)[1]?

/-- One entry of the declared configuration file: the keys match, position,
align and scale of the YAML mapping, each optional. -/
structure MonCfg where
  matchSpec : Option (List (String × String)) := none
  position : Option String := none
  align : Option String := none
  scale : Option String := none
  deriving DecidableEq, Repr

/-- The config file: a top-level ordered mapping logical name to attributes. -/
abbrev Config := List (String × MonCfg)

/-- One iteration of the first setup_monitors loop (source lines 381-399):
match, then initialize the Monitor with the physical name as id, the
native resolution, and any declared alignment. -/
def buildStep (phys : List Phys) (ms : MMap) (entry : String × MonCfg) :
    Except Err MMap := do
  let name := entry.1
  let mc := entry.2
  let selected ← match mc.matchSpec with
    | some mt => select_monitors phys mt
    | none => Except.error Err.noMatchKey
  match selected with
  | none => pure ms   -- logging.info('No monitor found'), continue
  | some ph => do
    let m := Monitor.init ph.name name
    let m := Monitor.set_resolution m (Res.px ph.width ph.height)
    let m ← match mc.align with
      | some a => Monitor.set_align m a
      | none => pure m
    pure (ms ++ [(name, m)])

/-- The first setup_monitors loop over the declared configuration. -/
def buildMonitors (cfg : Config) (phys : List Phys) : Except Err MMap :=
  cfg.foldlM (buildStep phys) []

/-- One iteration of the second setup_monitors loop (source lines 402-434):
wire the directional references named by the position directive, by
substring containment over the whole directive string, then apply a
declared scale.  Each containment check is independent of the others. -/
def wireStep (ms : MMap) (entry : String × MonCfg) : Except Err MMap := do
  let name := entry.1
  let mc := entry.2
  match lookupM ms name with
  | none => pure ms   -- continue: this logical monitor was never matched
  | some _ => do
    let ms ← match mc.position with
      | none => pure ms
      | some pos => do
        let relative_to ← need (token1 pos) Err.indexError
        match lookupM ms relative_to with
        | none => Except.error Err.monitorNotFound   -- 'Monitor not found', sys.exit(1)
        | some _ => do
          let ms := if containsSub pos "above" then
              updateWith (updateWith ms name (fun m => Monitor.set_below m relative_to))
                relative_to (fun m => Monitor.set_above m name)
            else ms
          let ms := if containsSub pos "below" then
              updateWith (updateWith ms name (fun m => Monitor.set_above m relative_to))
                relative_to (fun m => Monitor.set_below m name)
            else ms
          let ms := if containsSub pos "left-of" then
              updateWith (updateWith ms name (fun m => Monitor.set_right m relative_to))
                relative_to (fun m => Monitor.set_left m name)
            else ms
          let ms := if containsSub pos "right-of" then
              updateWith (updateWith ms name (fun m => Monitor.set_left m relative_to))
                relative_to (fun m => Monitor.set_right m name)
            else ms
          let ms := if containsSub pos "same-as" then
              match lookupM ms relative_to with
              | some relm => updateWith ms name (fun m =>
                  Monitor.set_extra
                    (Monitor.set_scale
                      (Monitor.set_resolution
                        (Monitor.set_position m Pos.auto) Res.preferred) "1")
                    ("mirror," ++ relm.id))
              | none => ms
            else ms
          pure ms
    match mc.scale with
    | some s => pure (updateWith ms name (fun m => Monitor.set_scale m s))
    | none => pure ms

/-- The second setup_monitors loop over the declared configuration. -/
def wireMonitors (cfg : Config) (ms : MMap) : Except Err MMap :=
  cfg.foldlM wireStep ms

/-- get_upmost_leftmost_monitor (source lines 273-285): first entry, in
dict order, whose position is not 'auto' and which has neither an above
nor a left neighbor; None when no entry qualifies. -/
def get_upmost_leftmost_monitor : MMap → Option (String × Monitor)
  | [] => none
  | (k, m) :: rest =>
    if m.position = Pos.auto then get_upmost_leftmost_monitor rest
    else if m.above = none ∧ m.left = none then some (k, m)
    else get_upmost_leftmost_monitor rest

/-- The next position computed for a right neighbor (source lines
305-315): x is the current width; y depends on the neighbor alignment,
with current.y used only by the top branch and any unrecognized value
falling back to center with a logged warning.  Python floor division
a // b is Int.fdiv. -/
def rightNextPos (monitor right_monitor : Monitor) (p : Int × Int) :
    Except Err (Int × Int) := do
  let next_position_x ← resW monitor.resolution
  let next_position_y ←
    if right_monitor.align = "top" then pure p.2
    else if right_monitor.align = "bottom" then do
      let h ← resH monitor.resolution
      let rh ← resH right_monitor.resolution
      pure (h - rh)
    else do
      -- any other value falls back to center with a logged warning
      let h ← resH monitor.resolution
      let rh ← resH right_monitor.resolution
      pure (Int.fdiv (h - rh) 2)
  pure (next_position_x, next_position_y)

/-- The next position computed for a below neighbor (source lines
323-334): y is the current height; x depends on the neighbor alignment,
with current.x used only by the left branch. -/
def belowNextPos (monitor below_monitor : Monitor) (p : Int × Int) :
    Except Err (Int × Int) := do
  let next_position_x ←
    if below_monitor.align = "left" then pure p.1
    else if below_monitor.align = "right" then do
      let w ← resW monitor.resolution
      let bw ← resW below_monitor.resolution
      pure (w - bw)
    else do
      -- any other value falls back to center with a logged warning
      let w ← resW monitor.resolution
      let bw ← resW below_monitor.resolution
      pure (Int.fdiv (w - bw) 2)
  let next_position_y ← resH monitor.resolution
  pure (next_position_x, next_position_y)

/-- set_position (source lines 287-338): store the given position on the
named monitor, then recurse into its right and below neighbors, whose
positions are the inline computations factored above.  Fuel models the
Python recursion limit; the source never walks above or left links. -/
def set_position (fuel : Nat) (monitors : MMap) (name : String) (p : Int × Int) :
    Except Err MMap :=
  match fuel with
  | 0 => Except.error Err.fuelOut
  | Nat.succ fuel => do
    let monitor ← need (lookupM monitors name) Err.keyError
    let monitors := updateM monitors name { monitor with position := Pos.posAt p.1 p.2 }
    let monitors ← match monitor.right with
      | none => pure monitors
      | some rname => do
        let right_monitor ← need (lookupM monitors rname) Err.keyError
        let next_position ← rightNextPos monitor right_monitor p
        set_position fuel monitors rname next_position
    match monitor.below with
    | none => pure monitors
    | some bname => do
      let below_monitor ← need (lookupM monitors bname) Err.keyError
      let next_position ← belowNextPos monitor below_monitor p
      set_position fuel monitors bname next_position

/-- The x list comprehension of line 444: x coordinates of the entries
whose position is not 'auto', evaluated left to right (a None position
raises before the filter can matter, as int(None.split..) does). -/
def nonAutoXs : MMap → Except Err (List Int)
  | [] => Except.ok []
  | (_, m) :: rest =>
    if m.position = Pos.auto then nonAutoXs rest
    else do
      let x ← posX m.position
      let xs ← nonAutoXs rest
      pure (x :: xs)

/-- The y list comprehension of line 445. -/
def nonAutoYs : MMap → Except Err (List Int)
  | [] => Except.ok []
  | (_, m) :: rest =>
    if m.position = Pos.auto then nonAutoYs rest
    else do
      let y ← posY m.position
      let ys ← nonAutoYs rest
      pure (y :: ys)

/-- Python min() over a list; ValueError on an empty list. -/
def minList : List Int → Except Err Int
  | [] => Except.error Err.valueError
  | x :: xs => Except.ok (xs.foldl min x)

/-- The x-shift loop of lines 450-454: runs over every entry of the dict,
including 'auto' ones, where int('auto') raises ValueError. -/
def shiftX : MMap → Int → Except Err MMap
  | [], _ => Except.ok []
  | (k, m) :: rest, min_x => do
    let x ← posX m.position
    let y ← posY m.position
    let rest' ← shiftX rest min_x
    pure ((k, { m with position := Pos.posAt (x - min_x) y }) :: rest')

/-- The y-shift loop of lines 455-459. -/
def shiftY : MMap → Int → Except Err MMap
  | [], _ => Except.ok []
  | (k, m) :: rest, min_y => do
    let x ← posX m.position
    let y ← posY m.position
    let rest' ← shiftY rest min_y
    pure ((k, { m with position := Pos.posAt x (y - min_y) }) :: rest')

/-- The normalization block of setup_monitors (source lines 443-459):
min x and min y are computed over non-'auto' entries, then each negative
minimum triggers its own independent whole-dict shift. -/
def normalize (monitors : MMap) : Except Err MMap := do
  let xs ← nonAutoXs monitors
  let min_x ← minList xs
  let ys ← nonAutoYs monitors
  let min_y ← minList ys
  let monitors ← if min_x < 0 then shiftX monitors min_x else pure monitors
  if min_y < 0 then shiftY monitors min_y else pure monitors

/-- setup_monitors lines 436-459: anchor discovery, recursive placement
from position 0x0, then normalization.  A missing anchor makes the source
call set_position(monitors, None), which raises AttributeError on the
first attribute assignment. -/
def resolveLayout (fuel : Nat) (monitors : MMap) : Except Err MMap := do
  match get_upmost_leftmost_monitor monitors with
  | none => Except.error Err.attrError
  | some anchor => do
    let monitors ← set_position fuel monitors anchor.1 (0, 0)
    normalize monitors

/-- setup_monitors (source lines 370-469) minus the external calls: build
the mapping, wire the declared relations, resolve the layout, and report
the mapping together with the names handed to apply_configuration, in
dict order.  The list is empty exactly when nothing is applied. -/
def setup_monitors (fuel : Nat) (cfg : Config) (phys : List Phys) :
    Except Err (MMap × List String) := do
  let monitors ← buildMonitors cfg phys
  let monitors ← wireMonitors cfg monitors
  let monitors ← resolveLayout fuel monitors
  pure (monitors, monitors.map (fun e => e.2.name))

/-- Position of the named entry, for stating claims. -/
def posOf (ms : MMap) (k : String) : Option Pos :=
  (lookupM ms k).map Monitor.position

/-- The two construction loops of setup_monitors, before layout resolution. -/
def wired (cfg : Config) (phys : List Phys) : Except Err MMap := do
  let monitors ← buildMonitors cfg phys
  wireMonitors cfg monitors

/-- min over the x coordinates of the non-auto entries (line 444). -/
def minNonAutoX (ms : MMap) : Except Err Int := do
  let xs ← nonAutoXs ms
  minList xs

/-- min over the y coordinates of the non-auto entries (line 445). -/
def minNonAutoY (ms : MMap) : Except Err Int := do
  let ys ← nonAutoYs ms
  minList ys

/-- A monitor with its position forgotten: the part of the record the
placement traversal reads but never writes. -/
def eraseM (m : Monitor) : Monitor :=
  { m with position := Pos.noPos }

/-- Two mappings with the same keys in the same order whose monitors agree
on everything but their positions. -/
def eraseEq (ms ms' : MMap) : Prop :=
  List.Forall₂ (fun a b => a.1 = b.1 ∧ eraseM a.2 = eraseM b.2) ms ms'

/-- Pointwise relation between the outputs t, t' of two traversals started
from ms, ms': at every key the outputs agree, or both kept their input. -/
def posAgree (ms ms' t t' : MMap) : Prop :=
  ∀ k, posOf t k = posOf t' k ∨ (posOf t k = posOf ms k ∧ posOf t' k = posOf ms' k)

/-- Positions as the Constraint Graph Builder leaves them: never concrete,
only unset or the auto sentinel. -/
def freshPositions (ms : MMap) : Bool :=
  ms.all (fun e => e.2.position == Pos.noPos || e.2.position == Pos.auto)

/-- The mutual-consistency invariant of the spec data model, in the two
directions the traversal walks: a right neighbor points back with left,
a below neighbor points back with above. -/
def mutualLinks (ms : MMap) : Bool :=
  ms.all (fun e =>
    (match e.2.right with
     | none => true
     | some r =>
       match lookupM ms r with
       | some rm => rm.left == some e.1
       | none => false) &&
    (match e.2.below with
     | none => true
     | some b =>
       match lookupM ms b with
       | some bm => bm.above == some e.1
       | none => false))

/-- The key list of a mapping, in order. -/
def keysOf (ms : MMap) : List String :=
  ms.map (fun e => e.1)

/-- Entry-wise effect of one x-shift step: same key, concrete position,
x moved by -d, everything else untouched. -/
def shiftedX (d : Int) (a b : String × Monitor) : Prop :=
  a.1 = b.1 ∧ ∃ x y, a.2.position = Pos.posAt x y ∧
    b.2 = { a.2 with position := Pos.posAt (x - d) y }

/-- Entry-wise effect of one y-shift step. -/
def shiftedY (d : Int) (a b : String × Monitor) : Prop :=
  a.1 = b.1 ∧ ∃ x y, a.2.position = Pos.posAt x y ∧
    b.2 = { a.2 with position := Pos.posAt x (y - d) }

/- Concrete scenarios used by the claim theorems. -/

/-- Three monitors chained by right links with top alignment, the wiring
the builder produces for C right-of B right-of A. -/
def chain3 : MMap :=
  [ ("A", { Monitor.init "idA" "A" with resolution := Res.px 1920 1080, right := some "B" }),
    ("B", { Monitor.init "idB" "B" with
              resolution := Res.px 1280 1024, left := some "A",
              right := some "C", align := "top" }),
    ("C", { Monitor.init "idC" "C" with
              resolution := Res.px 800 600, left := some "B", align := "top" }) ]

/-- One physical display whose serial is S2. -/
def physC2 : List Phys :=
  [ { name := "DP-2", width := 1280, height := 1024, fields := [("serial", "S2")] } ]

/-- X is matched, the Y it is declared right-of is not. -/
def cfgC2 : Config :=
  [ ("Y", { matchSpec := some [("serial", "S1")] }),
    ("X", { matchSpec := some [("serial", "S2")], position := some "right-of Y" }) ]

/-- The dual scenario: Y is matched, the X that references it is not. -/
def cfgC2b : Config :=
  [ ("Y", { matchSpec := some [("serial", "S2")] }),
    ("X", { matchSpec := some [("serial", "S1")], position := some "right-of Y" }) ]

/-- Three physical displays. -/
def physC3 : List Phys :=
  [ { name := "DP-1", width := 1920, height := 1080, fields := [("serial", "S1")] },
    { name := "DP-2", width := 1280, height := 1024, fields := [("serial", "S2")] },
    { name := "DP-3", width := 800, height := 600, fields := [("serial", "S3")] } ]

/-- B mirrors A and also declares a scale; C mirrors A with no scale. -/
def cfgC3 : Config :=
  [ ("A", { matchSpec := some [("serial", "S1")] }),
    ("B", { matchSpec := some [("serial", "S2")],
            position := some "same-as A", scale := some "2" }),
    ("C", { matchSpec := some [("serial", "S3")], position := some "same-as A" }) ]

/-- One physical display. -/
def physC4 : List Phys :=
  [ { name := "DP-1", width := 1920, height := 1080, fields := [("serial", "S1")] } ]

/-- A matched display declaring the alignment value middle, which is
outside the allowed set. -/
def cfgC4 : Config :=
  [ ("A", { matchSpec := some [("serial", "S1")], align := some "middle" }) ]

/-- A right-of chain whose right member carries the valid alignment left,
which neither the top nor the bottom branch of the placement recognizes. -/
def msC4b : MMap :=
  [ ("A", { Monitor.init "idA" "A" with resolution := Res.px 1920 1080, right := some "B" }),
    ("B", { Monitor.init "idB" "B" with
              resolution := Res.px 1280 1024, left := some "A", align := "left" }) ]

/-- A mapping holding one auto (mirror) entry and a below-chain whose
right-aligned member resolves to a negative x. -/
def msC5 : MMap :=
  [ ("A", { Monitor.init "idA" "A" with resolution := Res.px 100 100, below := some "B" }),
    ("B", { Monitor.init "idB" "B" with
              resolution := Res.px 300 100, above := some "A", align := "right" }),
    ("M", { Monitor.init "idM" "M" with
              resolution := Res.preferred, position := Pos.auto,
              extra := some "mirror,idA" }) ]

/-- The same mapping with left alignment, so that no coordinate is negative. -/
def msC5ok : MMap :=
  [ ("A", { Monitor.init "idA" "A" with resolution := Res.px 100 100, below := some "B" }),
    ("B", { Monitor.init "idB" "B" with
              resolution := Res.px 300 100, above := some "A", align := "left" }),
    ("M", { Monitor.init "idM" "M" with
              resolution := Res.preferred, position := Pos.auto,
              extra := some "mirror,idA" }) ]

/-- Two physical displays. -/
def physC7 : List Phys :=
  [ { name := "DP-1", width := 1920, height := 1080, fields := [("serial", "S1")] },
    { name := "DP-2", width := 1280, height := 1024, fields := [("serial", "S2")] } ]

/-- Two matched displays mutually declared left-of each other. -/
def cfgC7 : Config :=
  [ ("A", { matchSpec := some [("serial", "S1")], position := some "left-of B" }),
    ("B", { matchSpec := some [("serial", "S2")], position := some "left-of A" }) ]

/-- Two anchor candidates: both non-auto, neither with an above or left
neighbor. -/
def msC9 : MMap :=
  [ ("A", { Monitor.init "idA" "A" with resolution := Res.px 100 100 }),
    ("B", { Monitor.init "idB" "B" with resolution := Res.px 200 200 }) ]

/-- Two physical displays. -/
def physC10 : List Phys :=
  [ { name := "DP-1", width := 1920, height := 1080, fields := [("serial", "S1")] },
    { name := "DP-2", width := 1280, height := 1024, fields := [("serial", "S2")] } ]

/-- A directive whose referenced display name contains a direction
keyword: below DP-above contains both below and above. -/
def cfgC10 : Config :=
  [ ("DP-above", { matchSpec := some [("serial", "S1")] }),
    ("M", { matchSpec := some [("serial", "S2")], position := some "below DP-above" }) ]

/-- Two already-placed entries with negative coordinates on both axes. -/
def msC6 : MMap :=
  [ ("A", { Monitor.init "idA" "A" with
              resolution := Res.px 10 10, position := Pos.posAt (-3) 2 }),
    ("B", { Monitor.init "idB" "B" with
              resolution := Res.px 10 10, position := Pos.posAt 1 (-4) }) ]

/-- msC6 after normalization: shifted by (3, 4). -/
def msC6res : MMap :=
  [ ("A", { Monitor.init "idA" "A" with
              resolution := Res.px 10 10, position := Pos.posAt 0 6 }),
    ("B", { Monitor.init "idB" "B" with
              resolution := Res.px 10 10, position := Pos.posAt 4 0 }) ]

/-- A two-monitor mapping as the builder wires B right-of A. -/
def msC8 : MMap :=
  [ ("A", { Monitor.init "idA" "A" with resolution := Res.px 1920 1080, right := some "B" }),
    ("B", { Monitor.init "idB" "B" with resolution := Res.px 1280 1024, left := some "A" }) ]

/-- The resolved layout of msC8: A at the origin, B at 1920x28. -/
def msC8res : MMap :=
  [ ("A", { Monitor.init "idA" "A" with
              resolution := Res.px 1920 1080, right := some "B",
              position := Pos.posAt 0 0 }),
    ("B", { Monitor.init "idB" "B" with
              resolution := Res.px 1280 1024, left := some "A",
              position := Pos.posAt 1920 28 }) ]

/-- Claim C1: the claim states that a right neighbor R of an already
placed display is put at x = current.x + current.width at every step of
the traversal.  The code computes next_position_x from the current
resolution alone and drops current.x (and likewise drops current.y in the
bottom and center branches), so in the chain A, B right-of A, C right-of B
with top alignment, C lands at x = 1280 (the width of B), overlapping B,
where the claim demands B.x + B.width = 1920 + 1280 = 3200.  The
evaluation below exhibits the divergence: B is placed at 1920x0 and C at
1280x0. -/
theorem c1_chain_eval :
    (set_position 9 chain3 "A" (0, 0)).map (fun t => (posOf t "B", posOf t "C"))
      = Except.ok (some (Pos.posAt 1920 0), some (Pos.posAt 1280 0))
    ∧ (1280 : Int) ≠ 1920 + 1280 := by
  exact ⟨rfl, by decide⟩

/-- Claim C2, refuted: with X matched and the Y it is declared right-of
unmatched, the pass does not skip X and complete; line 412 aborts it. -/
theorem c2_counterexample :
    ¬ ∃ r, setup_monitors 9 cfgC2 physC2 = Except.ok r := by
  intro h
  obtain ⟨r, h⟩ := h
  rw [show setup_monitors 9 cfgC2 physC2 = Except.error Err.monitorNotFound from rfl] at h
  exact Except.noConfusion h

/-- Claim C2 as amended: referencing an unmatched monitor is the fatal
Monitor-not-found configuration error; the silent skip happens only when
the referencing display X is itself unmatched, in which case the pass
completes, X is absent from the mapping and X is not applied. -/
theorem c2_amended :
    setup_monitors 9 cfgC2 physC2 = Except.error Err.monitorNotFound
    ∧ (setup_monitors 9 cfgC2b physC2).map (fun r => (r.2, lookupM r.1 "X"))
        = Except.ok (["Y"], none) := by
  exact ⟨rfl, rfl⟩

/-- Claim C3, refuted: a display declared same-as A together with an
explicit scale of 2 ends the pass with scale 2, not the claimed 1,
because line 433 applies the declared scale after the same-as branch. -/
theorem c3_counterexample :
    ¬ ((setup_monitors 9 cfgC3 physC3).map (fun r => (lookupM r.1 "B").map Monitor.scale)
        = Except.ok (some "1")) := by
  intro h
  rw [show (setup_monitors 9 cfgC3 physC3).map (fun r => (lookupM r.1 "B").map Monitor.scale)
      = Except.ok (some "2") from rfl] at h
  simp at h

/-- Claim C3 as amended: same-as X sets position auto, resolution
preferred, scale 1 and extra mirror,physicalId-of-X, but a scale declared
on the same display overrides the 1 afterwards; without a declared scale
the record is exactly as the claim states.  B declares scale 2 and keeps
it, C declares none and keeps 1; both mirror DP-1, the physical id of A. -/
theorem c3_amended :
    (setup_monitors 9 cfgC3 physC3).map (fun r =>
        ((lookupM r.1 "B").map (fun m => (m.position, m.resolution, m.scale, m.extra)),
         (lookupM r.1 "C").map (fun m => (m.position, m.resolution, m.scale, m.extra))))
      = Except.ok
          (some (Pos.auto, Res.preferred, "2", some "mirror,DP-1"),
           some (Pos.auto, Res.preferred, "1", some "mirror,DP-1")) := by
  exact rfl

/-- Claim C4, refuted: a declared alignment value outside the allowed set
does not let the pass complete with a center fallback; Monitor.set_align
aborts the whole pass at line 132. -/
theorem c4_counterexample :
    ¬ ∃ r, setup_monitors 9 cfgC4 physC4 = Except.ok r := by
  intro h
  obtain ⟨r, h⟩ := h
  rw [show setup_monitors 9 cfgC4 physC4 = Except.error Err.invalidAlign from rfl] at h
  exact Except.noConfusion h

/-- Claim C4 as amended: an alignment value outside
left/right/top/bottom/center declared in the configuration is fatal via
Monitor.set_align; the warn-and-use-center fallback lives only inside
set_position, where it fires for stored values that are valid for
set_align but foreign to the branch, such as align left on a right
neighbor, which is then placed exactly as center would be
((1080 - 1024) / 2 = 28). -/
theorem c4_amended :
    setup_monitors 9 cfgC4 physC4 = Except.error Err.invalidAlign
    ∧ (set_position 9 msC4b "A" (0, 0)).map (fun t => posOf t "B")
        = Except.ok (some (Pos.posAt 1920 28)) := by
  exact ⟨rfl, rfl⟩

/-- Claim C5: the claim states that auto entries are excluded from
normalization and survive resolution unchanged even when the minimum x or
y is negative.  The shift loops of lines 450-459 iterate over every entry
of the dict, so once min x is negative the pass evaluates int('auto') and
dies with ValueError instead: with B resolved to -200x100 the resolution
of msC5 errors out, while the same mapping without a negative coordinate
(msC5ok) does pass its auto entry through unchanged. -/
theorem c5_auto_shift_eval :
    resolveLayout 9 msC5 = Except.error Err.valueError
    ∧ posOf msC5 "M" = some Pos.auto
    ∧ (resolveLayout 9 msC5ok).map (fun t => lookupM t "M") = Except.ok (lookupM msC5ok "M") := by
  exact ⟨rfl, rfl, rfl⟩

/-- Claim C7: two matched displays mutually declared left-of each other
give every monitor a left neighbor, anchor discovery returns None, and
set_position(monitors, None) raises on its first attribute assignment:
the pass ends in a fatal error and the apply stage is never reached, so
no positions are applied. -/
theorem c7_two_cycle_fatal :
    setup_monitors 9 cfgC7 physC7 = Except.error Err.attrError
    ∧ (wired cfgC7 physC7).map get_upmost_leftmost_monitor = Except.ok none := by
  exact ⟨rfl, rfl⟩

/-- Claim C9: anchor discovery returns the first entry in dict order whose
position is not auto and which has neither an above nor a left neighbor,
with no uniqueness check; in a mapping with two candidates the second is
never visited, keeps no position at all (None, not auto), and the pass
then dies with the AttributeError raised when line 444 reads the unset
position, not with a configuration error. -/
theorem c9_first_candidate_wins :
    (∀ ms : MMap, get_upmost_leftmost_monitor ms
        = ms.find? (fun e => decide (¬ e.2.position = Pos.auto
            ∧ e.2.above = none ∧ e.2.left = none)))
    ∧ (get_upmost_leftmost_monitor msC9).map (fun e => e.1) = some "A"
    ∧ (set_position 9 msC9 "A" (0, 0)).map (fun t => posOf t "B")
        = Except.ok (some Pos.noPos)
    ∧ resolveLayout 9 msC9 = Except.error Err.attrError := by
  refine ⟨?_, rfl, rfl, rfl⟩
  intro ms
  induction ms with
  | nil => rfl
  | cons e rest ih =>
    obtain ⟨k, m⟩ := e
    by_cases hauto : m.position = Pos.auto
    · simp [get_upmost_leftmost_monitor, List.find?, hauto, ih]
    · by_cases hcand : m.above = none ∧ m.left = none
      · simp [get_upmost_leftmost_monitor, List.find?, hauto, hcand]
      · simp [get_upmost_leftmost_monitor, List.find?, hauto, hcand, ih]

/- Lemmas about the normalization pass, used by claims C6 and C8. -/

theorem ok_bind {α β : Type} (a : α) (f : α → Except Err β) :
    (Except.ok a >>= f) = f a := rfl

theorem error_bind {α β : Type} (e : Err) (f : α → Except Err β) :
    ((Except.error e : Except Err α) >>= f) = Except.error e := rfl

theorem foldl_min_map_sub (d : Int) :
    ∀ (xs : List Int) (a : Int),
      (xs.map (fun x => x - d)).foldl min (a - d) = xs.foldl min a - d := by
  intro xs
  induction xs with
  | nil => intro a; rfl
  | cons b xs ih =>
    intro a
    simp only [List.map_cons, List.foldl_cons, min_sub_sub_right]
    exact ih (min a b)

theorem minList_map_sub (xs : List Int) (m d : Int)
    (h : minList xs = Except.ok m) :
    minList (xs.map (fun x => x - d)) = Except.ok (m - d) := by
  cases xs with
  | nil => exact Except.noConfusion h
  | cons x xs =>
    simp only [minList, Except.ok.injEq] at h
    simp only [List.map_cons, minList, Except.ok.injEq]
    rw [foldl_min_map_sub, h]

theorem minNonAutoX_elim {ms : MMap} {m : Int} (h : minNonAutoX ms = Except.ok m) :
    ∃ xs, nonAutoXs ms = Except.ok xs ∧ minList xs = Except.ok m := by
  cases hxs : nonAutoXs ms with
  | error e =>
    simp only [minNonAutoX, hxs, error_bind] at h
    exact Except.noConfusion h
  | ok xs =>
    simp only [minNonAutoX, hxs, ok_bind] at h
    exact ⟨xs, rfl, h⟩

theorem minNonAutoY_elim {ms : MMap} {m : Int} (h : minNonAutoY ms = Except.ok m) :
    ∃ ys, nonAutoYs ms = Except.ok ys ∧ minList ys = Except.ok m := by
  cases hys : nonAutoYs ms with
  | error e =>
    simp only [minNonAutoY, hys, error_bind] at h
    exact Except.noConfusion h
  | ok ys =>
    simp only [minNonAutoY, hys, ok_bind] at h
    exact ⟨ys, rfl, h⟩

/-- A successful x-shift relates input and output entrywise. -/
theorem shiftX_forall2 (d : Int) :
    ∀ (ms t : MMap), shiftX ms d = Except.ok t →
      List.Forall₂ (shiftedX d) ms t := by
  intro ms
  induction ms with
  | nil =>
    intro t h
    cases h
    exact List.Forall₂.nil
  | cons e rest ih =>
    intro t h
    obtain ⟨k, m⟩ := e
    cases hp : m.position with
    | posAt x y =>
      simp only [shiftX, hp, posX, posY, ok_bind] at h
      cases hr : shiftX rest d with
      | error e' => rw [hr] at h; exact Except.noConfusion h
      | ok rest' =>
        rw [hr, ok_bind] at h
        have h' : Except.ok ((k, { m with position := Pos.posAt (x - d) y }) :: rest')
            = Except.ok t := h
        cases h'
        exact List.Forall₂.cons ⟨rfl, x, y, hp, rfl⟩ (ih rest' hr)
    | auto =>
      simp only [shiftX, hp, posX, error_bind] at h
      exact Except.noConfusion h
    | noPos =>
      simp only [shiftX, hp, posX, error_bind] at h
      exact Except.noConfusion h

/-- A successful y-shift relates input and output entrywise. -/
theorem shiftY_forall2 (d : Int) :
    ∀ (ms t : MMap), shiftY ms d = Except.ok t →
      List.Forall₂ (shiftedY d) ms t := by
  intro ms
  induction ms with
  | nil =>
    intro t h
    cases h
    exact List.Forall₂.nil
  | cons e rest ih =>
    intro t h
    obtain ⟨k, m⟩ := e
    cases hp : m.position with
    | posAt x y =>
      simp only [shiftY, hp, posX, posY, ok_bind] at h
      cases hr : shiftY rest d with
      | error e' => rw [hr] at h; exact Except.noConfusion h
      | ok rest' =>
        rw [hr, ok_bind] at h
        have h' : Except.ok ((k, { m with position := Pos.posAt x (y - d) }) :: rest')
            = Except.ok t := h
        cases h'
        exact List.Forall₂.cons ⟨rfl, x, y, hp, rfl⟩ (ih rest' hr)
    | auto =>
      simp only [shiftY, hp, posX, error_bind] at h
      exact Except.noConfusion h
    | noPos =>
      simp only [shiftY, hp, posX, error_bind] at h
      exact Except.noConfusion h

/-- The x-shift shifts the non-auto x list by -d. -/
theorem nonAutoXs_shiftX (d : Int) :
    ∀ {ms t : MMap}, List.Forall₂ (shiftedX d) ms t →
      ∀ xs, nonAutoXs ms = Except.ok xs →
        nonAutoXs t = Except.ok (xs.map (fun x => x - d)) := by
  intro ms t hf
  induction hf with
  | nil => intro xs h; cases h; rfl
  | @cons a b l₁ l₂ hab _ ih =>
    intro xs h
    obtain ⟨hk, x, y, hpa, hb⟩ := hab
    simp only [nonAutoXs, hpa, posX, ok_bind] at h
    simp only [nonAutoXs, hb, hpa, posX, ok_bind]
    cases hr : nonAutoXs l₁ with
    | error e' => rw [hr] at h; exact Except.noConfusion h
    | ok xs₁ =>
      rw [hr, ok_bind] at h
      have h' : Except.ok (x :: xs₁) = Except.ok xs := h
      cases h'
      rw [ih xs₁ hr, ok_bind]
      rfl

/-- The x-shift leaves the non-auto y list unchanged. -/
theorem nonAutoYs_shiftX (d : Int) :
    ∀ {ms t : MMap}, List.Forall₂ (shiftedX d) ms t →
      ∀ ys, nonAutoYs ms = Except.ok ys → nonAutoYs t = Except.ok ys := by
  intro ms t hf
  induction hf with
  | nil => intro ys h; exact h
  | @cons a b l₁ l₂ hab _ ih =>
    intro ys h
    obtain ⟨hk, x, y, hpa, hb⟩ := hab
    simp only [nonAutoYs, hpa, posY, ok_bind] at h
    simp only [nonAutoYs, hb, hpa, posY, ok_bind]
    cases hr : nonAutoYs l₁ with
    | error e' => rw [hr] at h; exact Except.noConfusion h
    | ok ys₁ =>
      rw [hr, ok_bind] at h
      have h' : Except.ok (y :: ys₁) = Except.ok ys := h
      cases h'
      rw [ih ys₁ hr, ok_bind]
      rfl

/-- The y-shift leaves the non-auto x list unchanged. -/
theorem nonAutoXs_shiftY (d : Int) :
    ∀ {ms t : MMap}, List.Forall₂ (shiftedY d) ms t →
      ∀ xs, nonAutoXs ms = Except.ok xs → nonAutoXs t = Except.ok xs := by
  intro ms t hf
  induction hf with
  | nil => intro xs h; exact h
  | @cons a b l₁ l₂ hab _ ih =>
    intro xs h
    obtain ⟨hk, x, y, hpa, hb⟩ := hab
    simp only [nonAutoXs, hpa, posX, ok_bind] at h
    simp only [nonAutoXs, hb, hpa, posX, ok_bind]
    cases hr : nonAutoXs l₁ with
    | error e' => rw [hr] at h; exact Except.noConfusion h
    | ok xs₁ =>
      rw [hr, ok_bind] at h
      have h' : Except.ok (x :: xs₁) = Except.ok xs := h
      cases h'
      rw [ih xs₁ hr, ok_bind]
      rfl

/-- The y-shift shifts the non-auto y list by -d. -/
theorem nonAutoYs_shiftY (d : Int) :
    ∀ {ms t : MMap}, List.Forall₂ (shiftedY d) ms t →
      ∀ ys, nonAutoYs ms = Except.ok ys →
        nonAutoYs t = Except.ok (ys.map (fun y => y - d)) := by
  intro ms t hf
  induction hf with
  | nil => intro ys h; cases h; rfl
  | @cons a b l₁ l₂ hab _ ih =>
    intro ys h
    obtain ⟨hk, x, y, hpa, hb⟩ := hab
    simp only [nonAutoYs, hpa, posY, ok_bind] at h
    simp only [nonAutoYs, hb, hpa, posY, ok_bind]
    cases hr : nonAutoYs l₁ with
    | error e' => rw [hr] at h; exact Except.noConfusion h
    | ok ys₁ =>
      rw [hr, ok_bind] at h
      have h' : Except.ok (y :: ys₁) = Except.ok ys := h
      cases h'
      rw [ih ys₁ hr, ok_bind]
      rfl

/-- The x-shift moves each concretely placed key by (-d, 0). -/
theorem posOf_shiftX (d : Int) :
    ∀ {ms t : MMap}, List.Forall₂ (shiftedX d) ms t →
      ∀ k x y, posOf ms k = some (Pos.posAt x y) →
        posOf t k = some (Pos.posAt (x - d) y) := by
  intro ms t hf
  induction hf with
  | nil => intro k x y h; exact Option.noConfusion h
  | @cons a b l₁ l₂ hab _ ih =>
    intro k x y h
    obtain ⟨k₁, m₁⟩ := a
    obtain ⟨k₂, m₂⟩ := b
    obtain ⟨hk, x', y', hpa, hb⟩ := hab
    simp only at hk hpa hb
    subst hk
    by_cases hkk : k₁ = k
    · subst hkk
      simp only [posOf, lookupM, eq_self_iff_true, if_true, Option.map_some'] at h ⊢
      have hx : m₁.position = Pos.posAt x y := Option.some.inj h
      rw [hx] at hpa
      injection hpa with h1 h2
      subst h1
      subst h2
      rw [hb]
    · simp only [posOf, lookupM, if_neg hkk] at h ⊢
      exact ih k x y h

/-- The y-shift moves each concretely placed key by (0, -d). -/
theorem posOf_shiftY (d : Int) :
    ∀ {ms t : MMap}, List.Forall₂ (shiftedY d) ms t →
      ∀ k x y, posOf ms k = some (Pos.posAt x y) →
        posOf t k = some (Pos.posAt x (y - d)) := by
  intro ms t hf
  induction hf with
  | nil => intro k x y h; exact Option.noConfusion h
  | @cons a b l₁ l₂ hab _ ih =>
    intro k x y h
    obtain ⟨k₁, m₁⟩ := a
    obtain ⟨k₂, m₂⟩ := b
    obtain ⟨hk, x', y', hpa, hb⟩ := hab
    simp only at hk hpa hb
    subst hk
    by_cases hkk : k₁ = k
    · subst hkk
      simp only [posOf, lookupM, eq_self_iff_true, if_true, Option.map_some'] at h ⊢
      have hx : m₁.position = Pos.posAt x y := Option.some.inj h
      rw [hx] at hpa
      injection hpa with h1 h2
      subst h1
      subst h2
      rw [hb]
    · simp only [posOf, lookupM, if_neg hkk] at h ⊢
      exact ih k x y h

/-- Claim C6: whenever the normalization pass completes on a mapping whose
non-auto minimum x (resp. y) is negative, the resulting minimum over the
non-auto displays is exactly 0 on that axis, every concretely placed
display is translated by the same vector (so all pairwise differences are
preserved), and the x and y shifts are decided independently of each
other (each fires exactly when its own minimum is negative). -/
theorem c6_normalization (ms ms' : MMap) (mx my : Int)
    (h : normalize ms = Except.ok ms')
    (hx : minNonAutoX ms = Except.ok mx)
    (hy : minNonAutoY ms = Except.ok my) :
    (mx < 0 → minNonAutoX ms' = Except.ok 0)
    ∧ (my < 0 → minNonAutoY ms' = Except.ok 0)
    ∧ ∀ k x y, posOf ms k = some (Pos.posAt x y) →
        posOf ms' k = some (Pos.posAt
          (x - (if mx < 0 then mx else 0))
          (y - (if my < 0 then my else 0))) := by
  obtain ⟨xs, hxs, hmx⟩ := minNonAutoX_elim hx
  obtain ⟨ys, hys, hmy⟩ := minNonAutoY_elim hy
  simp only [normalize, hxs, hys, hmx, hmy, ok_bind] at h
  by_cases h1 : mx < 0
  · rw [if_pos h1] at h
    cases hsx : shiftX ms mx with
    | error e' => rw [hsx, error_bind] at h; exact Except.noConfusion h
    | ok t =>
      rw [hsx, ok_bind] at h
      have fx := shiftX_forall2 mx ms t hsx
      by_cases h2 : my < 0
      · rw [if_pos h2] at h
        have fy := shiftY_forall2 my t ms' h
        refine ⟨fun _ => ?_, fun _ => ?_, fun k x y hk => ?_⟩
        · have hxt := nonAutoXs_shiftX mx fx xs hxs
          have hxs' := nonAutoXs_shiftY my fy _ hxt
          simp only [minNonAutoX, hxs', ok_bind]
          rw [minList_map_sub xs mx mx hmx, sub_self]
        · have hyt := nonAutoYs_shiftX mx fx ys hys
          have hys' := nonAutoYs_shiftY my fy ys hyt
          simp only [minNonAutoY, hys', ok_bind]
          rw [minList_map_sub ys my my hmy, sub_self]
        · rw [if_pos h1, if_pos h2]
          exact posOf_shiftY my fy k _ _ (posOf_shiftX mx fx k x y hk)
      · rw [if_neg h2] at h
        have h' : Except.ok t = Except.ok ms' := h
        cases h'
        refine ⟨fun _ => ?_, fun h2' => absurd h2' h2, fun k x y hk => ?_⟩
        · have hxt := nonAutoXs_shiftX mx fx xs hxs
          simp only [minNonAutoX, hxt, ok_bind]
          rw [minList_map_sub xs mx mx hmx, sub_self]
        · rw [if_pos h1, if_neg h2, sub_zero]
          exact posOf_shiftX mx fx k x y hk
  · rw [if_neg h1] at h
    have h' : (Except.ok ms >>= fun t =>
        if my < 0 then shiftY t my else pure t) = Except.ok ms' := h
    rw [ok_bind] at h'
    by_cases h2 : my < 0
    · rw [if_pos h2] at h'
      have fy := shiftY_forall2 my ms ms' h'
      refine ⟨fun h1' => absurd h1' h1, fun _ => ?_, fun k x y hk => ?_⟩
      · have hys' := nonAutoYs_shiftY my fy ys hys
        simp only [minNonAutoY, hys', ok_bind]
        rw [minList_map_sub ys my my hmy, sub_self]
      · rw [if_neg h1, if_pos h2, sub_zero]
        exact posOf_shiftY my fy k x y hk
    · rw [if_neg h2] at h'
      have h'' : Except.ok ms = Except.ok ms' := h'
      cases h''
      refine ⟨fun h1' => absurd h1' h1, fun h2' => absurd h2' h2, fun k x y hk => ?_⟩
      rw [if_neg h1, if_neg h2, sub_zero, sub_zero]
      exact hk

/-- Witness for claim C6 at a concrete mapping: msC6 holds A at -3x2 and
B at 1x-4; normalization yields msC6res with A at 0x6 and B at 4x0. -/
theorem c6_normalization_witness :
    ((-3 : Int) < 0 → minNonAutoX msC6res = Except.ok 0)
    ∧ ((-4 : Int) < 0 → minNonAutoY msC6res = Except.ok 0)
    ∧ ∀ k x y, posOf msC6 k = some (Pos.posAt x y) →
        posOf msC6res k = some (Pos.posAt
          (x - (if (-3 : Int) < 0 then (-3 : Int) else 0))
          (y - (if (-4 : Int) < 0 then (-4 : Int) else 0))) :=
  c6_normalization msC6 msC6res (-3) (-4) (by rfl) (by rfl) (by rfl)

/-- Claim C10: the position directive is classified by substring
containment over the whole string and the five checks are independent, so
the directive below DP-above (whose referenced name contains the keyword
above) fires both the above and the below branch and wires both mutual
direction pairs between the two displays in a single pass. -/
theorem c10_substring_double_fire :
    containsSub "below DP-above" "above" = true
    ∧ containsSub "below DP-above" "below" = true
    ∧ (wired cfgC10 physC10).map (fun t =>
          ((lookupM t "M").map (fun m => (m.above, m.below)),
           (lookupM t "DP-above").map (fun m => (m.above, m.below))))
        = Except.ok
            (some (some "DP-above", some "DP-above"),
             some (some "M", some "M")) := by
  exact ⟨rfl, rfl, rfl⟩

/- Lemmas about lookup, update and shape equality, used by claim C8. -/

theorem bind_ok_elim {α β : Type} {e : Except Err α} {f : α → Except Err β} {b : β}
    (h : (e >>= f) = Except.ok b) : ∃ a, e = Except.ok a ∧ f a = Except.ok b := by
  cases e with
  | error err => exact Except.noConfusion h
  | ok a => exact ⟨a, rfl, h⟩

theorem eraseM_update_position (m : Monitor) (q : Pos) :
    eraseM { m with position := q } = eraseM m := rfl

/-- Monitors with equal shapes differ only in their position field. -/
theorem eraseM_elim {m m' : Monitor} (h : eraseM m = eraseM m') :
    m' = { m with position := m'.position } := by
  cases m
  cases m'
  simp only [eraseM] at h
  injection h with h1 h2 h3 h4 h5 h6 h7 h8 h9 h10 h11
  subst h1; subst h2; subst h3; subst h4; subst h5; subst h6; subst h7
  subst h9; subst h10; subst h11
  rfl

theorem lookupM_mem : ∀ {ms : MMap} {k : String} {m : Monitor},
    lookupM ms k = some m → (k, m) ∈ ms := by
  intro ms
  induction ms with
  | nil => intro k m h; exact Option.noConfusion h
  | cons e rest ih =>
    intro k m h
    obtain ⟨k₀, v⟩ := e
    by_cases hk : k₀ = k
    · subst hk
      simp only [lookupM, if_pos rfl] at h
      cases h
      exact List.mem_cons_self _ _
    · simp only [lookupM, if_neg hk] at h
      exact List.mem_cons_of_mem _ (ih h)

theorem lookupM_none_of_not_mem : ∀ {ms : MMap} {k : String},
    k ∉ keysOf ms → lookupM ms k = none := by
  intro ms
  induction ms with
  | nil => intro k _; rfl
  | cons e rest ih =>
    intro k hk
    obtain ⟨k₀, v⟩ := e
    simp only [keysOf, List.map_cons, List.mem_cons, not_or] at hk
    simp only [lookupM, if_neg (fun h : k₀ = k => hk.1 h.symm)]
    exact ih hk.2

theorem lookupM_updateM_ne : ∀ (ms : MMap) (n k : String) (m : Monitor),
    k ≠ n → lookupM (updateM ms n m) k = lookupM ms k := by
  intro ms
  induction ms with
  | nil => intro n k m _; rfl
  | cons e rest ih =>
    intro n k m hk
    obtain ⟨k₀, v⟩ := e
    by_cases h0 : k₀ = n
    · have hne : k₀ ≠ k := fun h => hk (h.symm.trans h0)
      simp only [updateM, if_pos h0, lookupM, if_neg hne]
    · simp only [updateM, if_neg h0, lookupM]
      by_cases h1 : k₀ = k
      · rw [if_pos h1, if_pos h1]
      · rw [if_neg h1, if_neg h1]
        exact ih n k m hk

theorem lookupM_updateM_self : ∀ (ms : MMap) (n : String) (m₀ m : Monitor),
    lookupM ms n = some m₀ → lookupM (updateM ms n m) n = some m := by
  intro ms
  induction ms with
  | nil => intro n m₀ m h; exact Option.noConfusion h
  | cons e rest ih =>
    intro n m₀ m h
    obtain ⟨k₀, v⟩ := e
    by_cases h0 : k₀ = n
    · subst h0
      simp only [updateM, lookupM, eq_self_iff_true, if_true]
    · simp only [updateM, if_neg h0, lookupM, if_neg h0] at h ⊢
      exact ih n m₀ m h

theorem updateM_absent : ∀ (ms : MMap) (n : String) (m : Monitor),
    lookupM ms n = none → updateM ms n m = ms := by
  intro ms
  induction ms with
  | nil => intro n m _; rfl
  | cons e rest ih =>
    intro n m h
    obtain ⟨k₀, v⟩ := e
    by_cases h0 : k₀ = n
    · simp only [lookupM, if_pos h0] at h
      exact Option.noConfusion h
    · simp only [lookupM, if_neg h0] at h
      simp only [updateM, if_neg h0, ih n m h]

theorem eraseEq_refl : ∀ ms : MMap, eraseEq ms ms := by
  intro ms
  induction ms with
  | nil => exact List.Forall₂.nil
  | cons e rest ih => exact List.Forall₂.cons ⟨rfl, rfl⟩ ih

theorem eraseEq_trans : ∀ {ms₁ ms₂ ms₃ : MMap},
    eraseEq ms₁ ms₂ → eraseEq ms₂ ms₃ → eraseEq ms₁ ms₃ := by
  intro ms₁ ms₂ ms₃ h1
  induction h1 generalizing ms₃ with
  | nil =>
    intro h2
    cases h2
    exact List.Forall₂.nil
  | cons hab _ ih =>
    intro h2
    cases h2 with
    | cons hbc hrest =>
      exact List.Forall₂.cons ⟨hab.1.trans hbc.1, hab.2.trans hbc.2⟩ (ih hrest)

theorem keysOf_eraseEq : ∀ {ms ms' : MMap}, eraseEq ms ms' → keysOf ms = keysOf ms' := by
  intro ms ms' h
  induction h with
  | nil => rfl
  | cons hab _ ih =>
    simp only [keysOf, List.map_cons] at ih ⊢
    rw [hab.1, ih]

theorem lookupM_eraseEq_some : ∀ {ms ms' : MMap}, eraseEq ms ms' →
    ∀ {k : String} {m : Monitor}, lookupM ms k = some m →
      ∃ m', lookupM ms' k = some m' ∧ eraseM m = eraseM m' := by
  intro ms ms' h
  induction h with
  | nil => intro k m hm; exact Option.noConfusion hm
  | @cons a b l₁ l₂ hab _ ih =>
    intro k m hm
    obtain ⟨k₁, m₁⟩ := a
    obtain ⟨k₂, m₂⟩ := b
    obtain ⟨hk, hv⟩ := hab
    simp only at hk hv
    subst hk
    by_cases hkk : k₁ = k
    · simp only [lookupM, if_pos hkk] at hm ⊢
      cases hm
      exact ⟨m₂, rfl, hv⟩
    · simp only [lookupM, if_neg hkk] at hm ⊢
      exact ih hm

theorem lookupM_eraseEq_none : ∀ {ms ms' : MMap}, eraseEq ms ms' →
    ∀ {k : String}, lookupM ms k = none → lookupM ms' k = none := by
  intro ms ms' h
  induction h with
  | nil => intro k _; rfl
  | @cons a b l₁ l₂ hab _ ih =>
    intro k hm
    obtain ⟨k₁, m₁⟩ := a
    obtain ⟨k₂, m₂⟩ := b
    obtain ⟨hk, hv⟩ := hab
    simp only at hk hv
    subst hk
    by_cases hkk : k₁ = k
    · simp only [lookupM, if_pos hkk] at hm
      exact Option.noConfusion hm
    · simp only [lookupM, if_neg hkk] at hm ⊢
      exact ih hm

theorem updateM_eraseEq : ∀ {ms ms' : MMap}, eraseEq ms ms' →
    ∀ {n : String} {mm mm' : Monitor}, eraseM mm = eraseM mm' →
      eraseEq (updateM ms n mm) (updateM ms' n mm') := by
  intro ms ms' h
  induction h with
  | nil => intro n mm mm' _; exact List.Forall₂.nil
  | @cons a b l₁ l₂ hab hrest ih =>
    intro n mm mm' hv
    obtain ⟨k₁, m₁⟩ := a
    obtain ⟨k₂, m₂⟩ := b
    obtain ⟨hk, hm⟩ := hab
    simp only at hk hm
    subst hk
    by_cases h0 : k₁ = n
    · simp only [updateM, if_pos h0]
      exact List.Forall₂.cons ⟨rfl, hv⟩ hrest
    · simp only [updateM, if_neg h0]
      exact List.Forall₂.cons ⟨rfl, hm⟩ (ih hv)

theorem eraseEq_updateM_self : ∀ (ms : MMap) (n : String) (m₀ mm : Monitor),
    lookupM ms n = some m₀ → eraseM mm = eraseM m₀ → eraseEq ms (updateM ms n mm) := by
  intro ms
  induction ms with
  | nil => intro n m₀ mm h _; exact Option.noConfusion h
  | cons e rest ih =>
    intro n m₀ mm h hv
    obtain ⟨k₀, v⟩ := e
    by_cases h0 : k₀ = n
    · subst h0
      simp only [lookupM, if_pos rfl] at h
      cases h
      simp only [updateM, if_pos rfl]
      exact List.Forall₂.cons ⟨rfl, hv.symm⟩ (eraseEq_refl rest)
    · simp only [lookupM, if_neg h0] at h
      simp only [updateM, if_neg h0]
      exact List.Forall₂.cons ⟨rfl, rfl⟩ (ih n m₀ mm h hv)

theorem posOf_updateM_ne {ms : MMap} {n k : String} {m : Monitor} (hk : k ≠ n) :
    posOf (updateM ms n m) k = posOf ms k := by
  simp only [posOf, lookupM_updateM_ne ms n k m hk]

theorem posOf_updateM_self {ms : MMap} {n : String} {m₀ m : Monitor}
    (h : lookupM ms n = some m₀) :
    posOf (updateM ms n m) n = some m.position := by
  simp only [posOf, lookupM_updateM_self ms n m₀ m h, Option.map_some']

theorem posAgree_trans {ms ms' u u' t t' : MMap}
    (h1 : posAgree ms ms' u u') (h2 : posAgree u u' t t') :
    posAgree ms ms' t t' := by
  intro k
  cases h2 k with
  | inl he => exact Or.inl he
  | inr hkeep =>
    cases h1 k with
    | inl he => exact Or.inl (hkeep.1.trans (he.trans hkeep.2.symm))
    | inr hkeep' => exact Or.inr ⟨hkeep.1.trans hkeep'.1, hkeep.2.trans hkeep'.2⟩

theorem posAgree_updateM {ms ms' : MMap} (he : eraseEq ms ms')
    {n : String} {mm mm' : Monitor} (hp : mm.position = mm'.position) :
    posAgree ms ms' (updateM ms n mm) (updateM ms' n mm') := by
  intro k
  by_cases hk : k = n
  · subst hk
    cases hml : lookupM ms k with
    | none =>
      rw [updateM_absent ms k mm hml, updateM_absent ms' k mm' (lookupM_eraseEq_none he hml)]
      exact Or.inr ⟨rfl, rfl⟩
    | some m₀ =>
      obtain ⟨m₀', hml', _⟩ := lookupM_eraseEq_some he hml
      rw [posOf_updateM_self hml, posOf_updateM_self hml', hp]
      exact Or.inl rfl
  · rw [posOf_updateM_ne hk, posOf_updateM_ne hk]
    exact Or.inr ⟨rfl, rfl⟩

theorem need_ok_elim {α : Type} {o : Option α} {e : Err} {a : α}
    (h : need o e = Except.ok a) : o = some a := by
  cases o with
  | none => exact Except.noConfusion h
  | some b => cases h; rfl

/-- Neither rightNextPos nor belowNextPos reads a position field, so both
factor through eraseM definitionally. -/
theorem rightNextPos_erase (m rm : Monitor) (p : Int × Int) :
    rightNextPos m rm p = rightNextPos (eraseM m) (eraseM rm) p := rfl

theorem belowNextPos_erase (m bm : Monitor) (p : Int × Int) :
    belowNextPos m bm p = belowNextPos (eraseM m) (eraseM bm) p := rfl

/-- Shape preservation of the below part of one set_position step. -/
theorem below_shape (fuel : Nat)
    (ihp : ∀ (ms : MMap) (n : String) (p : Int × Int) (t : MMap),
      set_position fuel ms n p = Except.ok t → eraseEq ms t)
    (u : MMap) (m : Monitor) (p : Int × Int) (t : MMap)
    (h : (match m.below with
          | none => pure u
          | some bname => do
              let below_monitor ← need (lookupM u bname) Err.keyError
              let next_position ← belowNextPos m below_monitor p
              set_position fuel u bname next_position) = Except.ok t) :
    eraseEq u t := by
  cases hb : m.below with
  | none =>
    rw [hb] at h
    have h' : Except.ok u = Except.ok t := h
    cases h'
    exact eraseEq_refl u
  | some bn =>
    rw [hb] at h
    obtain ⟨bm, hbm, h⟩ := bind_ok_elim h
    obtain ⟨q, hq, h⟩ := bind_ok_elim h
    exact ihp u bn q t h

/-- The placement traversal only rewrites position fields: its output has
the shape of its input. -/
theorem set_position_shape :
    ∀ (fuel : Nat) (ms : MMap) (n : String) (p : Int × Int) (t : MMap),
      set_position fuel ms n p = Except.ok t → eraseEq ms t := by
  intro fuel
  induction fuel with
  | zero => intro ms n p t h; exact Except.noConfusion h
  | succ fuel ih =>
    intro ms n p t h
    simp only [set_position] at h
    obtain ⟨m, hm0, h⟩ := bind_ok_elim h
    have hl : lookupM ms n = some m := need_ok_elim hm0
    have he1 : eraseEq ms (updateM ms n { m with position := Pos.posAt p.1 p.2 }) :=
      eraseEq_updateM_self ms n m _ hl (eraseM_update_position m _)
    cases hr : m.right with
    | none =>
      simp only [hr] at h
      rw [hr] at he1
      obtain ⟨u, hu, h⟩ := bind_ok_elim h
      have hu2 : Except.ok _ = Except.ok u := hu
      cases hu2
      exact eraseEq_trans he1 (below_shape fuel ih _ m p t h)
    | some rn =>
      simp only [hr] at h
      rw [hr] at he1
      obtain ⟨rm, hrm, h⟩ := bind_ok_elim h
      obtain ⟨q, hq, h⟩ := bind_ok_elim h
      obtain ⟨t₁, h₁, h⟩ := bind_ok_elim h
      have he2 := ih _ rn q t₁ h₁
      exact eraseEq_trans he1 (eraseEq_trans he2 (below_shape fuel ih t₁ m p t h))

/-- Two erased-equal maps step through the below part of one
set_position call identically. -/
theorem below_step (fuel : Nat)
    (ihp : ∀ (ms ms' : MMap) (n : String) (p : Int × Int) (t : MMap),
      eraseEq ms ms' → set_position fuel ms n p = Except.ok t →
      ∃ t', set_position fuel ms' n p = Except.ok t'
        ∧ eraseEq t t' ∧ posAgree ms ms' t t')
    (u u' : MMap) (m : Monitor) (p : Int × Int) (msO msO' : MMap) (t : MMap)
    (heu : eraseEq u u') (pau : posAgree msO msO' u u')
    (h : (match m.below with
          | none => pure u
          | some bname => do
              let below_monitor ← need (lookupM u bname) Err.keyError
              let next_position ← belowNextPos m below_monitor p
              set_position fuel u bname next_position) = Except.ok t) :
    ∃ t', (match m.below with
          | none => pure u'
          | some bname => do
              let below_monitor ← need (lookupM u' bname) Err.keyError
              let next_position ← belowNextPos m below_monitor p
              set_position fuel u' bname next_position) = Except.ok t'
        ∧ eraseEq t t' ∧ posAgree msO msO' t t' := by
  cases hb : m.below with
  | none =>
    simp only [hb] at h ⊢
    have h2 : Except.ok u = Except.ok t := h
    cases h2
    exact ⟨u', rfl, heu, pau⟩
  | some bn =>
    simp only [hb] at h ⊢
    obtain ⟨bm, hbm, h⟩ := bind_ok_elim h
    have hbm0 : lookupM u bn = some bm := need_ok_elim hbm
    obtain ⟨bm', hbm0', hbmm⟩ := lookupM_eraseEq_some heu hbm0
    obtain ⟨q, hq, h⟩ := bind_ok_elim h
    obtain ⟨t₁', h₁', he₂, pa₂⟩ := ihp u u' bn q t heu h
    refine ⟨t₁', ?_, he₂, posAgree_trans pau pa₂⟩
    rw [hbm0']
    simp only [need, ok_bind]
    have hq' : belowNextPos m bm' p = belowNextPos m bm p := by
      rw [belowNextPos_erase m bm' p, belowNextPos_erase m bm p, hbmm]
    rw [hq', hq]
    simp only [ok_bind]
    exact h₁'

/-- The placement traversal is driven entirely by the shape of the
mapping: on two erased-equal inputs it takes the same branches, computes
the same positions, succeeds together, and each key is either written
identically in both runs or left untouched in both. -/
theorem set_position_pair :
    ∀ (fuel : Nat) (ms ms' : MMap) (n : String) (p : Int × Int) (t : MMap),
      eraseEq ms ms' → set_position fuel ms n p = Except.ok t →
      ∃ t', set_position fuel ms' n p = Except.ok t'
        ∧ eraseEq t t' ∧ posAgree ms ms' t t' := by
  intro fuel
  induction fuel with
  | zero => intro ms ms' n p t _ h; exact Except.noConfusion h
  | succ fuel ih =>
    intro ms ms' n p t he h
    simp only [set_position] at h ⊢
    obtain ⟨m, hm0, h⟩ := bind_ok_elim h
    have hl : lookupM ms n = some m := need_ok_elim hm0
    obtain ⟨m', hl', hmm⟩ := lookupM_eraseEq_some he hl
    rw [hl']
    simp only [need, ok_bind]
    have hupd : ({ m' with position := Pos.posAt p.1 p.2 } : Monitor)
        = { m with position := Pos.posAt p.1 p.2 } := by
      have e1 : ({ m' with position := Pos.posAt p.1 p.2 } : Monitor)
          = { eraseM m' with position := Pos.posAt p.1 p.2 } := rfl
      have e2 : ({ m with position := Pos.posAt p.1 p.2 } : Monitor)
          = { eraseM m with position := Pos.posAt p.1 p.2 } := rfl
      rw [e1, e2, hmm]
    have hmr0 : (eraseM m').right = (eraseM m).right := congrArg Monitor.right hmm.symm
    have hmr : m'.right = m.right := hmr0
    have hmb0 : (eraseM m').below = (eraseM m).below := congrArg Monitor.below hmm.symm
    have hmb : m'.below = m.below := hmb0
    have hrnp : ∀ rm_ p_, rightNextPos m' rm_ p_ = rightNextPos m rm_ p_ := by
      intro rm_ p_
      rw [rightNextPos_erase m' rm_ p_, rightNextPos_erase m rm_ p_, hmm]
    have hbnp : ∀ bm_ p_, belowNextPos m' bm_ p_ = belowNextPos m bm_ p_ := by
      intro bm_ p_
      rw [belowNextPos_erase m' bm_ p_, belowNextPos_erase m bm_ p_, hmm]
    rw [hupd, hmr, hmb]
    simp only [hrnp, hbnp]
    have heU : eraseEq (updateM ms n { m with position := Pos.posAt p.1 p.2 })
        (updateM ms' n { m with position := Pos.posAt p.1 p.2 }) :=
      updateM_eraseEq he rfl
    have paU : posAgree ms ms'
        (updateM ms n { m with position := Pos.posAt p.1 p.2 })
        (updateM ms' n { m with position := Pos.posAt p.1 p.2 }) :=
      posAgree_updateM he rfl
    cases hr : m.right with
    | none =>
      simp only [hr] at h heU paU ⊢
      obtain ⟨u, hu, h⟩ := bind_ok_elim h
      have hu2 : Except.ok _ = Except.ok u := hu
      cases hu2
      obtain ⟨t', hbs, hbe, hbp⟩ :=
        below_step fuel ih _ _ m p ms ms' t heU paU h
      exact ⟨t', hbs, hbe, hbp⟩
    | some rn =>
      simp only [hr] at h heU paU ⊢
      obtain ⟨rm, hrm, h⟩ := bind_ok_elim h
      have hrm0 := need_ok_elim hrm
      obtain ⟨rm', hrm0', hrmm⟩ := lookupM_eraseEq_some heU hrm0
      obtain ⟨q, hq, h⟩ := bind_ok_elim h
      obtain ⟨t₁, h₁, h⟩ := bind_ok_elim h
      obtain ⟨t₁', h₁', he₂, pa₂⟩ := ih _ _ rn q t₁ heU h₁
      obtain ⟨t₂', hbs, hbe, hbp⟩ :=
        below_step fuel ih t₁ t₁' m p ms ms' t he₂ (posAgree_trans paU pa₂) h
      refine ⟨t₂', ?_, hbe, hbp⟩
      rw [hrm0']
      simp only [need, ok_bind]
      have hq' : rightNextPos m rm' p = rightNextPos m rm p := by
        rw [rightNextPos_erase m rm' p, rightNextPos_erase m rm p, hrmm]
      rw [hq', hq]
      simp only [ok_bind]
      rw [h₁']
      simp only [ok_bind]
      exact hbs

theorem forall2_mem_left {α β : Type} {R : α → β → Prop} :
    ∀ {l₁ : List α} {l₂ : List β}, List.Forall₂ R l₁ l₂ →
      ∀ {a : α}, a ∈ l₁ → ∃ b, b ∈ l₂ ∧ R a b := by
  intro l₁ l₂ h
  induction h with
  | nil => intro a ha; exact absurd ha (List.not_mem_nil a)
  | @cons x y l₁ l₂ hxy _ ih =>
    intro a ha
    cases List.mem_cons.mp ha with
    | inl heq => exact ⟨y, List.mem_cons_self y l₂, by rw [heq]; exact hxy⟩
    | inr hmem =>
      obtain ⟨b, hb, hr⟩ := ih hmem
      exact ⟨b, List.mem_cons_of_mem y hb, hr⟩

theorem forall2_mem_right {α β : Type} {R : α → β → Prop} :
    ∀ {l₁ : List α} {l₂ : List β}, List.Forall₂ R l₁ l₂ →
      ∀ {b : β}, b ∈ l₂ → ∃ a, a ∈ l₁ ∧ R a b := by
  intro l₁ l₂ h
  induction h with
  | nil => intro b hb; exact absurd hb (List.not_mem_nil b)
  | @cons x y l₁ l₂ hxy _ ih =>
    intro b hb
    cases List.mem_cons.mp hb with
    | inl heq => exact ⟨x, List.mem_cons_self x l₁, by rw [heq]; exact hxy⟩
    | inr hmem =>
      obtain ⟨a, ha, hr⟩ := ih hmem
      exact ⟨a, List.mem_cons_of_mem x ha, hr⟩

theorem posOf_some_elim {ms : MMap} {k : String} {pp : Pos}
    (h : posOf ms k = some pp) :
    ∃ m, lookupM ms k = some m ∧ m.position = pp := by
  cases hl : lookupM ms k with
  | none => rw [posOf, hl] at h; exact Option.noConfusion h
  | some m =>
    rw [posOf, hl, Option.map_some'] at h
    exact ⟨m, rfl, Option.some.inj h⟩

theorem posOf_eraseEq_none {ms ms' : MMap} (he : eraseEq ms ms') {k : String}
    (h : posOf ms k = none) : posOf ms' k = none := by
  cases hl : lookupM ms k with
  | none => rw [posOf, lookupM_eraseEq_none he hl]; rfl
  | some m => rw [posOf, hl, Option.map_some'] at h; exact Option.noConfusion h

/-- Monitors agreeing on shape and position are equal. -/
theorem monitor_ext {m m' : Monitor} (h1 : eraseM m = eraseM m')
    (h2 : m.position = m'.position) : m = m' := by
  cases m
  cases m'
  simp only [eraseM] at h1
  injection h1 with e1 e2 e3 e4 e5 e6 e7 e8 e9 e10 e11
  simp only at h2
  subst e1; subst e2; subst e3; subst e4; subst e5; subst e6; subst e7
  subst e9; subst e10; subst e11
  rw [h2]

/-- Erased-equal mappings with matching positions and duplicate-free keys
are equal. -/
theorem eq_of_eraseEq_pos :
    ∀ {t t' : MMap}, eraseEq t t' → (∀ k, posOf t k = posOf t' k) →
      (keysOf t).Nodup → t = t' := by
  intro t t' h
  induction h with
  | nil => intro _ _; rfl
  | @cons a b l₁ l₂ hab hrest ih =>
    intro hpos hnd
    obtain ⟨k₁, m₁⟩ := a
    obtain ⟨k₂, m₂⟩ := b
    obtain ⟨hk, hm⟩ := hab
    simp only at hk hm
    subst hk
    have hph := hpos k₁
    simp only [posOf, lookupM, eq_self_iff_true, if_true, Option.map_some'] at hph
    have hm12 : m₁ = m₂ := monitor_ext hm (Option.some.inj hph)
    subst hm12
    simp only [keysOf, List.map_cons, List.nodup_cons] at hnd
    have htail : ∀ k, posOf l₁ k = posOf l₂ k := by
      intro k
      by_cases hkk : k₁ = k
      · subst hkk
        have h1 : lookupM l₁ k₁ = none := lookupM_none_of_not_mem hnd.1
        have h2 : lookupM l₂ k₁ = none := by
          apply lookupM_none_of_not_mem
          rw [show keysOf l₂ = keysOf l₁ from (keysOf_eraseEq hrest).symm]
          exact hnd.1
        rw [posOf, posOf, h1, h2]
      · have hp := hpos k
        simp only [posOf, lookupM, if_neg hkk] at hp
        exact hp
    rw [ih htail hnd.2]

theorem fresh_mem {ms : MMap} (h : freshPositions ms = true) {k : String} {m : Monitor}
    (hm : (k, m) ∈ ms) : m.position = Pos.noPos ∨ m.position = Pos.auto := by
  have hx := List.all_eq_true.mp h _ hm
  simp only [Bool.or_eq_true, beq_iff_eq] at hx
  exact hx

theorem nonAutoXs_concrete :
    ∀ {ms : MMap} {xs : List Int}, nonAutoXs ms = Except.ok xs →
      ∀ {k : String} {m : Monitor}, (k, m) ∈ ms → m.position ≠ Pos.auto →
        ∃ x y, m.position = Pos.posAt x y := by
  intro ms
  induction ms with
  | nil => intro xs _ k m hm; exact absurd hm (List.not_mem_nil _)
  | cons e rest ih =>
    intro xs h k m hmem hna
    obtain ⟨k₀, m₀⟩ := e
    cases List.mem_cons.mp hmem with
    | inl heq =>
      have hm0 : m = m₀ := congrArg Prod.snd heq
      subst hm0
      rw [show nonAutoXs ((k₀, m) :: rest)
          = if m.position = Pos.auto then nonAutoXs rest
            else (posX m.position >>= fun x =>
              nonAutoXs rest >>= fun xs => pure (x :: xs)) from rfl, if_neg hna] at h
      obtain ⟨x, hx, _⟩ := bind_ok_elim h
      cases hp : m.position with
      | posAt x' y' => exact ⟨x', y', rfl⟩
      | auto => exact absurd hp hna
      | noPos => rw [hp] at hx; exact Except.noConfusion hx
    | inr hmem' =>
      by_cases hauto : m₀.position = Pos.auto
      · rw [show nonAutoXs ((k₀, m₀) :: rest)
            = if m₀.position = Pos.auto then nonAutoXs rest
              else (posX m₀.position >>= fun x =>
                nonAutoXs rest >>= fun xs => pure (x :: xs)) from rfl, if_pos hauto] at h
        exact ih h hmem' hna
      · rw [show nonAutoXs ((k₀, m₀) :: rest)
            = if m₀.position = Pos.auto then nonAutoXs rest
              else (posX m₀.position >>= fun x =>
                nonAutoXs rest >>= fun xs => pure (x :: xs)) from rfl, if_neg hauto] at h
        obtain ⟨x, _, h⟩ := bind_ok_elim h
        obtain ⟨xs', hxs', _⟩ := bind_ok_elim h
        exact ih hxs' hmem' hna

theorem normalize_nonAutoXs {t r : MMap} (h : normalize t = Except.ok r) :
    ∃ xs, nonAutoXs t = Except.ok xs := by
  simp only [normalize] at h
  obtain ⟨xs, hxs, _⟩ := bind_ok_elim h
  exact ⟨xs, hxs⟩

theorem shiftedX_eraseEq (d : Int) {ms t : MMap}
    (hf : List.Forall₂ (shiftedX d) ms t) : eraseEq ms t := by
  refine List.Forall₂.imp ?_ hf
  intro a b hab
  obtain ⟨hk, x, y, hpa, hbv⟩ := hab
  exact ⟨hk, by rw [hbv]; rfl⟩

theorem shiftedY_eraseEq (d : Int) {ms t : MMap}
    (hf : List.Forall₂ (shiftedY d) ms t) : eraseEq ms t := by
  refine List.Forall₂.imp ?_ hf
  intro a b hab
  obtain ⟨hk, x, y, hpa, hbv⟩ := hab
  exact ⟨hk, by rw [hbv]; rfl⟩

/-- Normalization either returns its input unchanged or shifts a fully
concrete mapping into a fully concrete mapping of the same shape. -/
theorem normalize_split {t r : MMap} (h : normalize t = Except.ok r) :
    r = t ∨ (eraseEq t r
      ∧ (∀ e ∈ t, ∃ x y, (e : String × Monitor).2.position = Pos.posAt x y)
      ∧ (∀ e ∈ r, ∃ x y, (e : String × Monitor).2.position = Pos.posAt x y)) := by
  simp only [normalize] at h
  obtain ⟨xs, hxs, h⟩ := bind_ok_elim h
  obtain ⟨mx, hmx, h⟩ := bind_ok_elim h
  obtain ⟨ys, hys, h⟩ := bind_ok_elim h
  obtain ⟨my, hmy, h⟩ := bind_ok_elim h
  by_cases h1 : mx < 0
  · rw [if_pos h1] at h
    obtain ⟨u, hu, h⟩ := bind_ok_elim h
    have fx := shiftX_forall2 mx t u hu
    by_cases h2 : my < 0
    · rw [if_pos h2] at h
      have fy := shiftY_forall2 my u r h
      refine Or.inr ⟨eraseEq_trans (shiftedX_eraseEq mx fx) (shiftedY_eraseEq my fy), ?_, ?_⟩
      · intro e he
        obtain ⟨b, _, _, x, y, hpa, _⟩ := forall2_mem_left fx he
        exact ⟨x, y, hpa⟩
      · intro e he
        obtain ⟨a, _, _, x, y, _, hbv⟩ := forall2_mem_right fy he
        rw [hbv]
        exact ⟨x, y - my, rfl⟩
    · rw [if_neg h2] at h
      have h' : Except.ok u = Except.ok r := h
      cases h'
      refine Or.inr ⟨shiftedX_eraseEq mx fx, ?_, ?_⟩
      · intro e he
        obtain ⟨b, _, _, x, y, hpa, _⟩ := forall2_mem_left fx he
        exact ⟨x, y, hpa⟩
      · intro e he
        obtain ⟨a, _, _, x, y, _, hbv⟩ := forall2_mem_right fx he
        rw [hbv]
        exact ⟨x - mx, y, rfl⟩
  · rw [if_neg h1] at h
    obtain ⟨u, hu, h⟩ := bind_ok_elim h
    have hu' : Except.ok t = Except.ok u := hu
    cases hu'
    by_cases h2 : my < 0
    · rw [if_pos h2] at h
      have fy := shiftY_forall2 my t r h
      refine Or.inr ⟨shiftedY_eraseEq my fy, ?_, ?_⟩
      · intro e he
        obtain ⟨b, _, _, x, y, hpa, _⟩ := forall2_mem_left fy he
        exact ⟨x, y, hpa⟩
      · intro e he
        obtain ⟨a, _, _, x, y, _, hbv⟩ := forall2_mem_right fy he
        rw [hbv]
        exact ⟨x, y - my, rfl⟩
    · rw [if_neg h2] at h
      have h' : Except.ok t = Except.ok r := h
      cases h'
      exact Or.inl rfl

theorem normalize_shape {t r : MMap} (h : normalize t = Except.ok r) :
    eraseEq t r := by
  cases normalize_split h with
  | inl he => rw [he]; exact eraseEq_refl t
  | inr he => exact he.1

theorem normalize_auto_pres {t r : MMap} (h : normalize t = Except.ok r)
    {k : String} (ha : posOf t k = some Pos.auto) : posOf r k = some Pos.auto := by
  cases normalize_split h with
  | inl he => rw [he]; exact ha
  | inr he =>
    obtain ⟨m, hlm, hpm⟩ := posOf_some_elim ha
    obtain ⟨x, y, hxy⟩ := he.2.1 (k, m) (lookupM_mem hlm)
    rw [hpm] at hxy
    exact Pos.noConfusion hxy

theorem normalize_no_new_auto {t r : MMap} (h : normalize t = Except.ok r)
    {k : String} (ha : posOf r k = some Pos.auto) : posOf t k = some Pos.auto := by
  cases normalize_split h with
  | inl he => rw [← he]; exact ha
  | inr he =>
    obtain ⟨m, hlm, hpm⟩ := posOf_some_elim ha
    obtain ⟨x, y, hxy⟩ := he.2.2 (k, m) (lookupM_mem hlm)
    rw [hpm] at hxy
    exact Pos.noConfusion hxy

theorem all_congr_forall2 {α β : Type} {R : α → β → Prop} {f : α → Bool} {g : β → Bool} :
    ∀ {l₁ : List α} {l₂ : List β}, List.Forall₂ R l₁ l₂ →
      (∀ a b, R a b → f a = g b) → l₁.all f = l₂.all g := by
  intro l₁ l₂ h H
  induction h with
  | nil => rfl
  | cons hab _ ih => simp only [List.all_cons, H _ _ hab, ih]

/-- The mutual-link check reads only shapes, so it transfers across
erased-equal mappings. -/
theorem mutualLinks_eraseEq {ms ms' : MMap} (he : eraseEq ms ms') :
    mutualLinks ms = mutualLinks ms' := by
  refine all_congr_forall2 he ?_
  intro a b hab
  obtain ⟨hk, hm⟩ := hab
  have hr0 : (eraseM a.2).right = (eraseM b.2).right := congrArg Monitor.right hm
  have hr : a.2.right = b.2.right := hr0
  have hb0 : (eraseM a.2).below = (eraseM b.2).below := congrArg Monitor.below hm
  have hbl : a.2.below = b.2.below := hb0
  rw [← hr, ← hbl, ← hk]
  congr 1
  · cases har : a.2.right with
    | none => rfl
    | some r =>
      show (match lookupM ms r with
            | some rm => rm.left == some a.1
            | none => false)
          = (match lookupM ms' r with
            | some rm => rm.left == some a.1
            | none => false)
      cases hlr : lookupM ms r with
      | none => rw [lookupM_eraseEq_none he hlr]
      | some rm =>
        obtain ⟨rm', hlr', hrm⟩ := lookupM_eraseEq_some he hlr
        rw [hlr']
        show (rm.left == some a.1) = (rm'.left == some a.1)
        have hl0 : (eraseM rm).left = (eraseM rm').left := congrArg Monitor.left hrm
        rw [show rm.left = rm'.left from hl0]
  · cases hab2 : a.2.below with
    | none => rfl
    | some bn =>
      show (match lookupM ms bn with
            | some bm => bm.above == some a.1
            | none => false)
          = (match lookupM ms' bn with
            | some bm => bm.above == some a.1
            | none => false)
      cases hlb : lookupM ms bn with
      | none => rw [lookupM_eraseEq_none he hlb]
      | some bm =>
        obtain ⟨bm', hlb', hbm⟩ := lookupM_eraseEq_some he hlb
        rw [hlb']
        show (bm.above == some a.1) = (bm'.above == some a.1)
        have ha0 : (eraseM bm).above = (eraseM bm').above := congrArg Monitor.above hbm
        rw [show bm.above = bm'.above from ha0]

theorem mutualLinks_right {ms : MMap} (h : mutualLinks ms = true)
    {k : String} {m : Monitor} (hm : (k, m) ∈ ms) {r : String}
    (hr : m.right = some r) :
    ∃ rm, lookupM ms r = some rm ∧ rm.left = some k := by
  have hx := List.all_eq_true.mp h _ hm
  simp only [Bool.and_eq_true] at hx
  have h1 := hx.1
  rw [hr] at h1
  have h2 : (match lookupM ms r with
      | some rm => rm.left == some k
      | none => false) = true := h1
  cases hlr : lookupM ms r with
  | none => rw [hlr] at h2; exact Bool.noConfusion h2
  | some rm =>
    rw [hlr] at h2
    have h3 : (rm.left == some k) = true := h2
    exact ⟨rm, rfl, eq_of_beq h3⟩

theorem mutualLinks_below {ms : MMap} (h : mutualLinks ms = true)
    {k : String} {m : Monitor} (hm : (k, m) ∈ ms) {b : String}
    (hb : m.below = some b) :
    ∃ bm, lookupM ms b = some bm ∧ bm.above = some k := by
  have hx := List.all_eq_true.mp h _ hm
  simp only [Bool.and_eq_true] at hx
  have h1 := hx.2
  rw [hb] at h1
  have h2 : (match lookupM ms b with
      | some bm => bm.above == some k
      | none => false) = true := h1
  cases hlb : lookupM ms b with
  | none => rw [hlb] at h2; exact Bool.noConfusion h2
  | some bm =>
    rw [hlb] at h2
    have h3 : (bm.above == some k) = true := h2
    exact ⟨bm, rfl, eq_of_beq h3⟩

theorem lookupM_some_mem_keys {ms : MMap} {k : String} {m : Monitor}
    (h : lookupM ms k = some m) : k ∈ keysOf ms := by
  have := lookupM_mem h
  exact List.mem_map.mpr ⟨(k, m), this, rfl⟩

theorem mem_lookupM_nodup : ∀ {ms : MMap}, (keysOf ms).Nodup →
    ∀ {k : String} {m : Monitor}, (k, m) ∈ ms → lookupM ms k = some m := by
  intro ms
  induction ms with
  | nil => intro _ k m hm; exact absurd hm (List.not_mem_nil _)
  | cons e rest ih =>
    intro hnd k m hm
    obtain ⟨k₀, m₀⟩ := e
    simp only [keysOf, List.map_cons, List.nodup_cons] at hnd
    cases List.mem_cons.mp hm with
    | inl heq =>
      have hk : k = k₀ := congrArg Prod.fst heq
      have hmm : m = m₀ := congrArg Prod.snd heq
      subst hk; subst hmm
      simp only [lookupM, eq_self_iff_true, if_true]
    | inr hmem =>
      have hk : k₀ ≠ k := by
        intro he
        subst he
        exact hnd.1 (lookupM_some_mem_keys (ih hnd.2 hmem))
      simp only [lookupM, if_neg hk]
      exact ih hnd.2 hmem

/-- What anchor discovery guarantees about the entry it returns. -/
theorem get_upmost_lookup : ∀ {ms : MMap} {k : String} {m : Monitor},
    get_upmost_leftmost_monitor ms = some (k, m) →
      (k, m) ∈ ms ∧ m.position ≠ Pos.auto ∧ m.above = none ∧ m.left = none := by
  intro ms
  induction ms with
  | nil => intro k m h; exact Option.noConfusion h
  | cons e rest ih =>
    intro k m h
    obtain ⟨k₀, m₀⟩ := e
    by_cases hauto : m₀.position = Pos.auto
    · rw [show get_upmost_leftmost_monitor ((k₀, m₀) :: rest)
          = get_upmost_leftmost_monitor rest by
        simp [get_upmost_leftmost_monitor, hauto]] at h
      obtain ⟨hmem, h2, h3, h4⟩ := ih h
      exact ⟨List.mem_cons_of_mem _ hmem, h2, h3, h4⟩
    · by_cases hcand : m₀.above = none ∧ m₀.left = none
      · rw [show get_upmost_leftmost_monitor ((k₀, m₀) :: rest)
            = some (k₀, m₀) by
          simp [get_upmost_leftmost_monitor, hauto, hcand]] at h
        obtain ⟨hk, hm⟩ := Prod.mk.injEq .. ▸ Option.some.inj h
        subst hk; subst hm
        exact ⟨List.mem_cons_self _ _, hauto, hcand.1, hcand.2⟩
      · rw [show get_upmost_leftmost_monitor ((k₀, m₀) :: rest)
            = get_upmost_leftmost_monitor rest by
          simp [get_upmost_leftmost_monitor, hauto, hcand]] at h
        obtain ⟨hmem, h2, h3, h4⟩ := ih h
        exact ⟨List.mem_cons_of_mem _ hmem, h2, h3, h4⟩

/-- Anchor discovery returns the same key on two mappings that agree on
links and, wherever both links are absent, on auto-ness. -/
theorem get_upmost_agree :
    ∀ {ms ms' : MMap}, List.Forall₂ (fun a b : String × Monitor =>
        a.1 = b.1 ∧ a.2.above = b.2.above ∧ a.2.left = b.2.left ∧
        ((a.2.above = none ∧ a.2.left = none) →
          (a.2.position = Pos.auto ↔ b.2.position = Pos.auto))) ms ms' →
      ∀ {k : String} {m : Monitor}, get_upmost_leftmost_monitor ms = some (k, m) →
        ∃ m', get_upmost_leftmost_monitor ms' = some (k, m') := by
  intro ms ms' hf
  induction hf with
  | nil => intro k m h; exact Option.noConfusion h
  | @cons a b l₁ l₂ hab _ ih =>
    intro k m h
    obtain ⟨k₁, m₁⟩ := a
    obtain ⟨k₂, m₂⟩ := b
    obtain ⟨hk, hA, hL, hIff⟩ := hab
    simp only at hk hA hL hIff
    subst hk
    by_cases hcand : m₁.above = none ∧ m₁.left = none
    · by_cases hauto : m₁.position = Pos.auto
      · have hauto' : m₂.position = Pos.auto := (hIff hcand).mp hauto
        rw [show get_upmost_leftmost_monitor ((k₁, m₁) :: l₁)
            = get_upmost_leftmost_monitor l₁ by
          simp [get_upmost_leftmost_monitor, hauto]] at h
        obtain ⟨m', hm'⟩ := ih h
        refine ⟨m', ?_⟩
        rw [show get_upmost_leftmost_monitor ((k₁, m₂) :: l₂)
            = get_upmost_leftmost_monitor l₂ by
          simp [get_upmost_leftmost_monitor, hauto']]
        exact hm'
      · have hauto' : ¬ m₂.position = Pos.auto := fun hx => hauto ((hIff hcand).mpr hx)
        rw [show get_upmost_leftmost_monitor ((k₁, m₁) :: l₁)
            = some (k₁, m₁) by
          simp [get_upmost_leftmost_monitor, hauto, hcand]] at h
        have hk1 : k₁ = k := congrArg Prod.fst (Option.some.inj h)
        subst hk1
        refine ⟨m₂, ?_⟩
        rw [show get_upmost_leftmost_monitor ((k₁, m₂) :: l₂)
            = some (k₁, m₂) by
          simp [get_upmost_leftmost_monitor, hauto', hA ▸ hcand.1, hL ▸ hcand.2]]
    · have hcand' : ¬ (m₂.above = none ∧ m₂.left = none) := by
        rw [← hA, ← hL]
        exact hcand
      by_cases hauto : m₁.position = Pos.auto
      · rw [show get_upmost_leftmost_monitor ((k₁, m₁) :: l₁)
            = get_upmost_leftmost_monitor l₁ by
          simp [get_upmost_leftmost_monitor, hauto]] at h
        obtain ⟨m', hm'⟩ := ih h
        refine ⟨m', ?_⟩
        by_cases hauto' : m₂.position = Pos.auto
        · rw [show get_upmost_leftmost_monitor ((k₁, m₂) :: l₂)
              = get_upmost_leftmost_monitor l₂ by
            simp [get_upmost_leftmost_monitor, hauto']]
          exact hm'
        · rw [show get_upmost_leftmost_monitor ((k₁, m₂) :: l₂)
              = get_upmost_leftmost_monitor l₂ by
            simp [get_upmost_leftmost_monitor, hauto', hcand']]
          exact hm'
      · rw [show get_upmost_leftmost_monitor ((k₁, m₁) :: l₁)
            = get_upmost_leftmost_monitor l₁ by
          simp [get_upmost_leftmost_monitor, hauto, hcand]] at h
        obtain ⟨m', hm'⟩ := ih h
        refine ⟨m', ?_⟩
        by_cases hauto' : m₂.position = Pos.auto
        · rw [show get_upmost_leftmost_monitor ((k₁, m₂) :: l₂)
              = get_upmost_leftmost_monitor l₂ by
            simp [get_upmost_leftmost_monitor, hauto']]
          exact hm'
        · rw [show get_upmost_leftmost_monitor ((k₁, m₂) :: l₂)
              = get_upmost_leftmost_monitor l₂ by
            simp [get_upmost_leftmost_monitor, hauto', hcand']]
          exact hm'

theorem below_writes (fuel : Nat)
    (ihp : ∀ (ms : MMap) (n : String) (p : Int × Int) (t : MMap),
      set_position fuel ms n p = Except.ok t →
      ∀ k, posOf t k = posOf ms k ∨ ∃ x y, posOf t k = some (Pos.posAt x y))
    (u : MMap) (m : Monitor) (p : Int × Int) (t : MMap)
    (h : (match m.below with
          | none => pure u
          | some bname => do
              let below_monitor ← need (lookupM u bname) Err.keyError
              let next_position ← belowNextPos m below_monitor p
              set_position fuel u bname next_position) = Except.ok t) :
    ∀ k, posOf t k = posOf u k ∨ ∃ x y, posOf t k = some (Pos.posAt x y) := by
  cases hb : m.below with
  | none =>
    simp only [hb] at h
    have h2 : Except.ok u = Except.ok t := h
    cases h2
    intro k
    exact Or.inl rfl
  | some bn =>
    simp only [hb] at h
    obtain ⟨bm, hbm, h⟩ := bind_ok_elim h
    obtain ⟨q, hq, h⟩ := bind_ok_elim h
    exact ihp u bn q t h

/-- Every position the traversal writes is concrete: a key either keeps
its input position or ends at some posAt. -/
theorem set_position_writes :
    ∀ (fuel : Nat) (ms : MMap) (n : String) (p : Int × Int) (t : MMap),
      set_position fuel ms n p = Except.ok t →
      ∀ k, posOf t k = posOf ms k ∨ ∃ x y, posOf t k = some (Pos.posAt x y) := by
  intro fuel
  induction fuel with
  | zero => intro ms n p t h; exact Except.noConfusion h
  | succ fuel ih =>
    intro ms n p t h k
    simp only [set_position] at h
    obtain ⟨m, hm0, h⟩ := bind_ok_elim h
    have hl : lookupM ms n = some m := need_ok_elim hm0
    have hU : posOf (updateM ms n { m with position := Pos.posAt p.1 p.2 }) k = posOf ms k
        ∨ ∃ x y, posOf (updateM ms n { m with position := Pos.posAt p.1 p.2 }) k
            = some (Pos.posAt x y) := by
      by_cases hkn : k = n
      · subst hkn
        exact Or.inr ⟨p.1, p.2, posOf_updateM_self hl⟩
      · exact Or.inl (posOf_updateM_ne hkn)
    cases hr : m.right with
    | none =>
      simp only [hr] at h hU
      obtain ⟨u, hu, h⟩ := bind_ok_elim h
      have hu2 : Except.ok _ = Except.ok u := hu
      cases hu2
      cases below_writes fuel ih _ m p t h k with
      | inl he =>
        cases hU with
        | inl h2 => exact Or.inl (he.trans h2)
        | inr h2 =>
          obtain ⟨x, y, hxy⟩ := h2
          exact Or.inr ⟨x, y, he.trans hxy⟩
      | inr hw => exact Or.inr hw
    | some rn =>
      simp only [hr] at h hU
      obtain ⟨rm, hrm, h⟩ := bind_ok_elim h
      obtain ⟨q, hq, h⟩ := bind_ok_elim h
      obtain ⟨t₁, h₁, h⟩ := bind_ok_elim h
      have hT1 := ih _ rn q t₁ h₁ k
      cases below_writes fuel ih t₁ m p t h k with
      | inl he =>
        cases hT1 with
        | inl h2 =>
          cases hU with
          | inl h3 => exact Or.inl ((he.trans h2).trans h3)
          | inr h3 =>
            obtain ⟨x, y, hxy⟩ := h3
            exact Or.inr ⟨x, y, (he.trans h2).trans hxy⟩
        | inr h2 =>
          obtain ⟨x, y, hxy⟩ := h2
          exact Or.inr ⟨x, y, he.trans hxy⟩
      | inr hw => exact Or.inr hw

theorem below_untouched (fuel : Nat)
    (ihp : ∀ (ms : MMap) (n : String) (p : Int × Int) (t : MMap),
      set_position fuel ms n p = Except.ok t → mutualLinks ms = true →
      ∀ (k : String) (mk_ : Monitor), lookupM ms k = some mk_ →
        mk_.above = none → mk_.left = none → ¬ k = n → posOf t k = posOf ms k)
    (u : MMap) (m : Monitor) (nO : String) (p : Int × Int) (t : MMap)
    (hmu : mutualLinks u = true)
    (hnO : ∃ mn, lookupM u nO = some mn ∧ mn.below = m.below)
    (h : (match m.below with
          | none => pure u
          | some bname => do
              let below_monitor ← need (lookupM u bname) Err.keyError
              let next_position ← belowNextPos m below_monitor p
              set_position fuel u bname next_position) = Except.ok t)
    (k : String) (mk_ : Monitor) (hk : lookupM u k = some mk_)
    (hab : mk_.above = none) (hlf : mk_.left = none) :
    posOf t k = posOf u k := by
  cases hb : m.below with
  | none =>
    simp only [hb] at h
    have h2 : Except.ok u = Except.ok t := h
    cases h2
    rfl
  | some bn =>
    simp only [hb] at h
    obtain ⟨bm, hbm0, h⟩ := bind_ok_elim h
    have hbm : lookupM u bn = some bm := need_ok_elim hbm0
    obtain ⟨q, hq, h⟩ := bind_ok_elim h
    obtain ⟨mn, hmn, hmnb⟩ := hnO
    obtain ⟨bm₂, hlb₂, hbm₂a⟩ :=
      mutualLinks_below hmu (lookupM_mem hmn) (hmnb.trans hb)
    have hbmeq : bm₂ = bm := by
      rw [hbm] at hlb₂
      exact (Option.some.inj hlb₂).symm
    have hkbn : ¬ k = bn := by
      intro he
      subst he
      have hmkbm : mk_ = bm := by
        rw [hk] at hbm
        exact Option.some.inj hbm
      rw [hmkbm, ← hbmeq, hbm₂a] at hab
      exact Option.noConfusion hab
    exact ihp u bn q t h hmu k mk_ hk hab hlf hkbn

/-- A key with neither an above nor a left link, other than the start,
is never written by the traversal: only right and below targets are, and
those carry a back link by mutual consistency. -/
theorem set_position_untouched :
    ∀ (fuel : Nat) (ms : MMap) (n : String) (p : Int × Int) (t : MMap),
      set_position fuel ms n p = Except.ok t → mutualLinks ms = true →
      ∀ (k : String) (mk_ : Monitor), lookupM ms k = some mk_ →
        mk_.above = none → mk_.left = none → ¬ k = n → posOf t k = posOf ms k := by
  intro fuel
  induction fuel with
  | zero => intro ms n p t h; exact Except.noConfusion h
  | succ fuel ih =>
    intro ms n p t h hmu k mk_ hk hab hlf hkn
    simp only [set_position] at h
    obtain ⟨m, hm0, h⟩ := bind_ok_elim h
    have hl : lookupM ms n = some m := need_ok_elim hm0
    have hkU : lookupM (updateM ms n { m with position := Pos.posAt p.1 p.2 }) k
        = some mk_ := by
      rw [lookupM_updateM_ne ms n k _ hkn]
      exact hk
    have heU : eraseEq ms (updateM ms n { m with position := Pos.posAt p.1 p.2 }) :=
      eraseEq_updateM_self ms n m _ hl (eraseM_update_position m _)
    have hmuU : mutualLinks (updateM ms n { m with position := Pos.posAt p.1 p.2 })
        = true := by
      rw [← mutualLinks_eraseEq heU]
      exact hmu
    have hpU : posOf (updateM ms n { m with position := Pos.posAt p.1 p.2 }) k
        = posOf ms k := posOf_updateM_ne hkn
    have hnU : lookupM (updateM ms n { m with position := Pos.posAt p.1 p.2 }) n
        = some { m with position := Pos.posAt p.1 p.2 } :=
      lookupM_updateM_self ms n m _ hl
    cases hr : m.right with
    | none =>
      simp only [hr] at h hkU heU hmuU hpU hnU
      obtain ⟨u, hu, h⟩ := bind_ok_elim h
      have hu2 : Except.ok _ = Except.ok u := hu
      cases hu2
      have hres := below_untouched fuel ih _ m n p t hmuU ⟨_, hnU, rfl⟩ h k mk_ hkU hab hlf
      exact hres.trans hpU
    | some rn =>
      simp only [hr] at h hkU heU hmuU hpU hnU
      obtain ⟨rm, hrm0, h⟩ := bind_ok_elim h
      have hrm := need_ok_elim hrm0
      obtain ⟨q, hq, h⟩ := bind_ok_elim h
      obtain ⟨t₁, h₁, h⟩ := bind_ok_elim h
      obtain ⟨rm₂, hlb₂, hrm₂l⟩ :=
        mutualLinks_right hmuU (lookupM_mem hnU) rfl
      have hrmeq : rm₂ = rm := by
        rw [hrm] at hlb₂
        exact (Option.some.inj hlb₂).symm
      have hkrn : ¬ k = rn := by
        intro he
        subst he
        have hmkrm : mk_ = rm := by
          rw [hkU] at hrm
          exact Option.some.inj hrm
        rw [hmkrm, ← hrmeq, hrm₂l] at hlf
        exact Option.noConfusion hlf
      have hp₁ := ih _ rn q t₁ h₁ hmuU k mk_ hkU hab hlf hkrn
      have heUt := set_position_shape fuel _ rn q t₁ h₁
      obtain ⟨mk₁, hk₁, hkm⟩ := lookupM_eraseEq_some heUt hkU
      have hab₁ : mk₁.above = none := by
        have e0 : (eraseM mk_).above = (eraseM mk₁).above := congrArg Monitor.above hkm
        have e1 : mk_.above = mk₁.above := e0
        rw [← e1]
        exact hab
      have hlf₁ : mk₁.left = none := by
        have e0 : (eraseM mk_).left = (eraseM mk₁).left := congrArg Monitor.left hkm
        have e1 : mk_.left = mk₁.left := e0
        rw [← e1]
        exact hlf
      have hmu₁ : mutualLinks t₁ = true := by
        rw [← mutualLinks_eraseEq heUt]
        exact hmuU
      obtain ⟨mn₁, hn₁, hnm⟩ := lookupM_eraseEq_some heUt hnU
      have hnb : mn₁.below = m.below := by
        have e0 := congrArg Monitor.below hnm
        have e1 : m.below = mn₁.below := e0
        exact e1.symm
      have hres := below_untouched fuel ih t₁ m n p t hmu₁ ⟨mn₁, hn₁, hnb⟩ h k mk₁ hk₁ hab₁ hlf₁
      exact (hres.trans hp₁).trans hpU

theorem forall2_of_eraseEq_pointwise :
    ∀ {ms ms' : MMap}, eraseEq ms ms' → (keysOf ms).Nodup →
      (∀ k m m', lookupM ms k = some m → lookupM ms' k = some m' →
        ((m.above = none ∧ m.left = none) →
          (m.position = Pos.auto ↔ m'.position = Pos.auto))) →
      List.Forall₂ (fun a b : String × Monitor =>
        a.1 = b.1 ∧ a.2.above = b.2.above ∧ a.2.left = b.2.left ∧
        ((a.2.above = none ∧ a.2.left = none) →
          (a.2.position = Pos.auto ↔ b.2.position = Pos.auto))) ms ms' := by
  intro ms ms' he
  induction he with
  | nil => intro _ _; exact List.Forall₂.nil
  | @cons a b l₁ l₂ hab hrest ih =>
    intro hnd H
    obtain ⟨k₁, m₁⟩ := a
    obtain ⟨k₂, m₂⟩ := b
    obtain ⟨hk, hm⟩ := hab
    simp only at hk hm
    subst hk
    simp only [keysOf, List.map_cons, List.nodup_cons] at hnd
    have e0 := congrArg Monitor.above hm
    have hA : m₁.above = m₂.above := e0
    have e1 := congrArg Monitor.left hm
    have hL : m₁.left = m₂.left := e1
    have hHead := H k₁ m₁ m₂
      (by simp [lookupM]) (by simp [lookupM])
    refine List.Forall₂.cons ⟨rfl, hA, hL, hHead⟩ (ih hnd.2 ?_)
    intro k m m' hm1 hm2
    have hkk : ¬ k₁ = k := by
      intro he2
      subst he2
      exact hnd.1 (lookupM_some_mem_keys hm1)
    refine H k m m' ?_ ?_
    · simp only [lookupM, if_neg hkk]
      exact hm1
    · simp only [lookupM, if_neg hkk]
      exact hm2

/-- Running the traversal from the discovered anchor and normalizing
leaves the anchor discovery outcome unchanged: the same key is found
again on the resolved mapping. -/
theorem anchor_stable (fuel : Nat) (ms t₁ ms₁ : MMap) (k₀ : String) (m₀ : Monitor)
    (hnd : (keysOf ms).Nodup)
    (hmut : mutualLinks ms = true)
    (ha : get_upmost_leftmost_monitor ms = some (k₀, m₀))
    (hsp : set_position fuel ms k₀ (0, 0) = Except.ok t₁)
    (hn : normalize t₁ = Except.ok ms₁) :
    ∃ m₁, get_upmost_leftmost_monitor ms₁ = some (k₀, m₁) := by
  have heT : eraseEq ms t₁ := set_position_shape fuel ms k₀ (0, 0) t₁ hsp
  have heM : eraseEq ms ms₁ := eraseEq_trans heT (normalize_shape hn)
  refine get_upmost_agree ?_ ha
  refine forall2_of_eraseEq_pointwise heM hnd ?_
  intro k m m₁' hlm hlm₁ hlinks
  constructor
  · intro hauto
    have hkk0 : ¬ k = k₀ := by
      intro he
      subst he
      obtain ⟨hmem0, hna0, _, _⟩ := get_upmost_lookup ha
      have hl0 : lookupM ms k = some m₀ := mem_lookupM_nodup hnd hmem0
      rw [hlm] at hl0
      rw [Option.some.inj hl0] at hauto
      exact hna0 hauto
    have hunt : posOf t₁ k = posOf ms k :=
      set_position_untouched fuel ms k₀ (0, 0) t₁ hsp hmut k m hlm
        hlinks.1 hlinks.2 hkk0
    have hm1auto : posOf ms₁ k = some Pos.auto := by
      apply normalize_auto_pres hn
      rw [hunt, posOf, hlm, Option.map_some', hauto]
    obtain ⟨mm, hmm', hp⟩ := posOf_some_elim hm1auto
    rw [hlm₁] at hmm'
    rw [Option.some.inj hmm']
    exact hp
  · intro hauto₁
    have h₁auto : posOf t₁ k = some Pos.auto := by
      apply normalize_no_new_auto hn
      rw [posOf, hlm₁, Option.map_some', hauto₁]
    cases set_position_writes fuel ms k₀ (0, 0) t₁ hsp k with
    | inl hunch =>
      have hmsk : posOf ms k = some Pos.auto := by
        rw [← hunch]
        exact h₁auto
      obtain ⟨mm, hmm', hp⟩ := posOf_some_elim hmsk
      rw [hlm] at hmm'
      rw [Option.some.inj hmm']
      exact hp
    | inr hw =>
      obtain ⟨x, y, hxy⟩ := hw
      rw [h₁auto] at hxy
      exact Pos.noConfusion (Option.some.inj hxy)

/-- Claim C8: on a mapping as the builder produces it (duplicate-free
keys, positions only unset or auto) whose directional links are mutually
consistent, a successful layout resolution is idempotent: resolving the
already-resolved mapping discovers the same anchor and returns the very
same mapping, so every display keeps its absolute position. -/
theorem c8_resolve_idempotent (fuel : Nat) (ms ms₁ : MMap)
    (hnd : (keysOf ms).Nodup)
    (hfresh : freshPositions ms = true)
    (hmut : mutualLinks ms = true)
    (h1 : resolveLayout fuel ms = Except.ok ms₁) :
    resolveLayout fuel ms₁ = Except.ok ms₁ := by
  simp only [resolveLayout] at h1 ⊢
  cases hA : get_upmost_leftmost_monitor ms with
  | none => rw [hA] at h1; exact Except.noConfusion h1
  | some a =>
    rw [hA] at h1
    obtain ⟨k₀, m₀⟩ := a
    obtain ⟨t₁, hsp, hn⟩ := bind_ok_elim h1
    obtain ⟨m₁, hA₁⟩ := anchor_stable fuel ms t₁ ms₁ k₀ m₀ hnd hmut hA hsp hn
    rw [hA₁]
    have heT : eraseEq ms t₁ := set_position_shape fuel ms k₀ (0, 0) t₁ hsp
    have heM : eraseEq ms ms₁ := eraseEq_trans heT (normalize_shape hn)
    obtain ⟨t₂, hsp', he12, pag⟩ := set_position_pair fuel ms ms₁ k₀ (0, 0) t₁ heM hsp
    have hpt : ∀ k, posOf t₁ k = posOf t₂ k := by
      intro k
      cases pag k with
      | inl he => exact he
      | inr hkeep =>
        cases hmk : posOf ms k with
        | none =>
          rw [hkeep.1, hmk, hkeep.2, posOf_eraseEq_none heM hmk]
        | some pp =>
          obtain ⟨m, hlm, hpm⟩ := posOf_some_elim hmk
          cases fresh_mem hfresh (lookupM_mem hlm) with
          | inl hnp =>
            exfalso
            obtain ⟨xs, hxs⟩ := normalize_nonAutoXs hn
            have h1k : posOf t₁ k = some Pos.noPos := by
              rw [hkeep.1, posOf, hlm, Option.map_some', hnp]
            obtain ⟨mt, hlt, hps⟩ := posOf_some_elim h1k
            obtain ⟨x, y, hxy⟩ := nonAutoXs_concrete hxs (lookupM_mem hlt)
              (by rw [hps]; intro hq; exact Pos.noConfusion hq)
            rw [hps] at hxy
            exact Pos.noConfusion hxy
          | inr hap =>
            have h1k : posOf t₁ k = some Pos.auto := by
              rw [hkeep.1, posOf, hlm, Option.map_some', hap]
            have h2k : posOf ms₁ k = some Pos.auto := normalize_auto_pres hn h1k
            rw [hkeep.2, h2k, h1k]
    have ht21 : t₁ = t₂ := by
      apply eq_of_eraseEq_pos he12 hpt
      rw [show keysOf t₁ = keysOf ms from (keysOf_eraseEq heT).symm]
      exact hnd
    rw [← ht21] at hsp'
    show (set_position fuel ms₁ k₀ (0, 0) >>= fun monitors => normalize monitors)
        = Except.ok ms₁
    rw [hsp', ok_bind]
    exact hn

/-- Witness for claim C8: the two-monitor mapping msC8 resolves to
msC8res, and resolving msC8res again returns msC8res itself. -/
theorem c8_resolve_idempotent_witness :
    resolveLayout 9 msC8res = Except.ok msC8res :=
  c8_resolve_idempotent 9 msC8 msC8res (by decide) (by rfl) (by rfl) (by rfl)

end HM
